import Mathlib

/-!
# Verification of pixl-cli's progress-bar engine and table auto-fit layout

A shallow embedding of `src/cli.js` (the `progress` object and the
`autoFitTableRows` / `table` functions), with theorems checking the
natural-language specification against the code.

Modelling conventions:
* JavaScript numbers that hold progress amounts and timestamps are modelled
  as `ℚ`; character counts and widths as `ℕ` (with `ℤ` where the source can
  go negative before a guard).
* Strings are `List Char`.  Style application (`applyStyles`, backed by the
  external `chalk` package) is kept symbolic: rendered lines are structured
  values that record, for each piece of text, which style list the source
  would apply, instead of embedding the escape codes chalk would emit.
* `stringWidth` (the external `string-width` npm package) is modelled from
  the spec's glossary: the printable column count of a string, obtained by
  stripping `ESC [ ... m` style-escape sequences and counting every
  remaining character as one column.
-/

namespace PixlCli

/-- The ANSI escape character `\u001b`. -/
def escChar : Char := Char.ofNat 27

theorem length_dropWhile_le (p : Char → Bool) (l : List Char) :
    (l.dropWhile p).length ≤ l.length := by
  induction l with
  | nil => simp [List.dropWhile]
  | cons c rest ih =>
    simp only [List.dropWhile]
    split
    · simpa using Nat.le_succ_of_le ih
    · simp

/-- Modelled from the spec: "Display width: the printable column count of a
string, excluding non-printing style escape sequences" (`string-width` is an
external collaborator of the repository).  Strips every `ESC [ ... m`
sequence; every remaining character counts as one column. -/
def stripAnsi (l : List Char) : List Char :=
  match l with
  | [] => []
  | c :: rest =>
    if c = escChar ∧ rest.head? = some '[' ∧ 'm' ∈ rest.tail then
      stripAnsi ((rest.tail.dropWhile (· ≠ 'm')).tail)
    else
      c :: stripAnsi rest
termination_by l.length
decreasing_by
  · have h1 : (rest.tail.dropWhile (· ≠ 'm')).length ≤ rest.tail.length :=
      length_dropWhile_le _ _
    have h2 : rest.tail.length ≤ rest.length := by
      cases rest <;> simp
    simp only [List.length_tail, List.length_cons]
    omega
  · simp

/-- Modelled from the spec (external `string-width`): display width of a
string. -/
def swM (l : List Char) : ℕ := (stripAnsi l).length

/-- `cli.repeat` (src/cli.js line 99): repeats a string `amount` times,
returning the empty string for a zero or negative count. -/
def repeatStr (s : List Char) (amount : ℤ) : List Char :=
  (List.replicate amount.toNat s).flatten

/-- `cli.space` (src/cli.js line 105). -/
def spaceStr (amount : ℤ) : List Char := repeatStr [' '] amount

/-- The per-element chalk style lists of a progress session
(src/cli.js lines 520-528). -/
structure PStyles where
  spinner : List String
  braces : List String
  bar : List String
  indeterminate : List String
  pct : List String
  remain : List String
  text : List String
deriving DecidableEq, Repr

/-- The default style lists (src/cli.js lines 520-528). -/
def defaultStyles : PStyles :=
  ⟨["bold", "green"], ["gray"], ["bold", "cyan"], ["gray"],
   ["bold", "yellow"], ["green"], []⟩

/-- `args.styles = {}` after `color: false` (src/cli.js line 562): every
lookup yields `undefined`, which `applyStyles` treats as "no styles". -/
def emptyStyles : PStyles := ⟨[], [], [], [], [], [], []⟩

/-- The progress session's configuration hash `this.args`
(src/cli.js lines 513-539 plus the keys added by `start`). -/
structure PArgs where
  spinner : List (List Char)
  braces : List Char × List Char
  filling : List (List Char)
  filled : List Char
  indent : List Char
  styles : PStyles
  pct : Bool
  width : ℕ
  freq : ℕ
  remain : Bool
  color : Bool
  unicode : Bool
  quiet : Bool
  amount : ℚ
  max : ℚ
  text : List Char
  timeStart : ℚ
  lastRemainCheck : ℚ
  lastRemainString : List Char
deriving DecidableEq, Repr

/-- The default configuration (src/cli.js lines 514-539).  Keys the defaults
hash does not carry (`amount`, `max`, `text`, `timeStart`,
`lastRemainCheck`, `lastRemainString`, `quiet`) are `undefined` in the
source and modelled by their falsy value; `start` then applies its fix-ups. -/
def progressDefaults : PArgs where
  spinner := [['⠋'], ['⠙'], ['⠹'], ['⠸'], ['⠼'], ['⠴'], ['⠦'], ['⠧'], ['⠇'], ['⠏']]
  braces := (['⟦'], ['⟧'])
  filling := [[' '], ['⡀'], ['⡄'], ['⡆'], ['⡇'], ['⣇'], ['⣧'], ['⣷']]
  filled := ['⣿']
  indent := []
  styles := defaultStyles
  pct := true
  width := 30
  freq := 100
  remain := true
  color := true
  unicode := true
  quiet := false
  amount := 0
  max := 0
  text := []
  timeStart := 0
  lastRemainCheck := 0
  lastRemainString := []

/-- The bar body built by `progress.draw` (src/cli.js lines 622-630):
`width = clamp(amount/max, 0, 1) * args.width`, `floor(width)` copies of the
full-fill glyph, one partial glyph when a fractional remainder exists,
space padding up to `args.width` display columns.  An out-of-range
`filling` index (impossible for a non-empty filling sequence) is modelled
as the empty string. -/
def drawBarChars (args : PArgs) : List Char :=
  let w : ℚ := (max 0 (min (args.amount / args.max) 1)) * (args.width : ℚ)
  let frac : ℚ := w - ⌊w⌋
  let bar1 : List Char := repeatStr args.filled ⌊w⌋
  let bar2 : List Char :=
    bar1 ++ (if 0 < frac then
      args.filling.getD (Int.toNat ⌊frac * (args.filling.length : ℚ)⌋) []
    else [])
  bar2 ++ spaceStr ((args.width : ℤ) - (swM bar2 : ℤ))

/-- A string without the escape character is its own ANSI-stripped form. -/
theorem stripAnsi_of_not_mem (l : List Char) (h : escChar ∉ l) :
    stripAnsi l = l := by
  induction l with
  | nil => rw [stripAnsi]
  | cons c rest ih =>
    rw [stripAnsi]
    have hc : ¬(c = escChar ∧ rest.head? = some '[' ∧ 'm' ∈ rest.tail) := by
      intro hcon
      exact h (hcon.1 ▸ List.mem_cons_self c rest)
    rw [if_neg hc, ih (fun hm => h (List.mem_cons_of_mem c hm))]

/-- Display width of an escape-free string is its length. -/
theorem swM_of_not_mem (l : List Char) (h : escChar ∉ l) : swM l = l.length := by
  rw [swM, stripAnsi_of_not_mem l h]

theorem flatten_replicate_singleton (n : ℕ) (c : Char) :
    (List.replicate n [c]).flatten = List.replicate n c := by
  induction n with
  | zero => rfl
  | succ m ih => simp [List.replicate_succ, ih]

theorem length_flatten_replicate (n : ℕ) (s : List Char) :
    (List.replicate n s).flatten.length = n * s.length := by
  induction n with
  | zero => simp
  | succ m ih => simp [List.replicate_succ, ih, Nat.succ_mul, Nat.add_comm]

theorem mem_flatten_replicate {n : ℕ} {s : List Char} {x : Char}
    (h : x ∈ (List.replicate n s).flatten) : x ∈ s := by
  rcases List.mem_flatten.1 h with ⟨t, ht, hx⟩
  rwa [List.eq_of_mem_replicate ht] at hx

theorem spaceStr_toNat (n : ℤ) : spaceStr n = List.replicate n.toNat ' ' := by
  rw [spaceStr, repeatStr, flatten_replicate_singleton]

/-- C1.  For `0 ≤ amount ≤ max`, `max > 0` and any bar width, the bar body
rendered by `progress.draw` is exactly `floor((amount/max) * width)` copies
of the full-fill glyph, then one partial glyph `filling[floor(frac * |filling|)]`
exactly when the fractional remainder `frac` is positive, then spaces; and
its total display width is `width`.  (The clamp in the source reduces to
`amount/max` under these hypotheses; glyphs are single characters of display
width 1, as all shipped glyph sets are.) -/
theorem progress_draw_bar_body (args : PArgs)
    (h0 : 0 ≤ args.amount) (h1 : args.amount ≤ args.max) (h2 : 0 < args.max)
    (hfl : args.filled.length = 1) (hfe : escChar ∉ args.filled)
    (hfn : args.filling ≠ [])
    (hg : ∀ g ∈ args.filling, g.length = 1 ∧ escChar ∉ g) :
    drawBarChars args =
      (List.replicate (Int.toNat ⌊args.amount / args.max * (args.width : ℚ)⌋) args.filled).flatten
        ++ (if 0 < args.amount / args.max * (args.width : ℚ)
                  - ⌊args.amount / args.max * (args.width : ℚ)⌋ then
              args.filling.getD
                (Int.toNat ⌊(args.amount / args.max * (args.width : ℚ)
                    - ⌊args.amount / args.max * (args.width : ℚ)⌋)
                  * (args.filling.length : ℚ)⌋) []
            else [])
        ++ List.replicate
            (args.width - (Int.toNat ⌊args.amount / args.max * (args.width : ℚ)⌋
              + if 0 < args.amount / args.max * (args.width : ℚ)
                    - ⌊args.amount / args.max * (args.width : ℚ)⌋ then 1 else 0)) ' '
      ∧ swM (drawBarChars args) = args.width
      ∧ (0 < args.amount / args.max * (args.width : ℚ)
            - ⌊args.amount / args.max * (args.width : ℚ)⌋ →
          (args.filling.getD
            (Int.toNat ⌊(args.amount / args.max * (args.width : ℚ)
                - ⌊args.amount / args.max * (args.width : ℚ)⌋)
              * (args.filling.length : ℚ)⌋) []).length = 1) := by
  set r : ℚ := args.amount / args.max with hr
  set w : ℚ := r * (args.width : ℚ) with hw
  have hr0 : 0 ≤ r := div_nonneg h0 h2.le
  have hr1 : r ≤ 1 := (div_le_one h2).2 h1
  have hclamp : max 0 (min r 1) = r := by rw [min_eq_left hr1, max_eq_right hr0]
  have hw0 : (0 : ℚ) ≤ w := mul_nonneg hr0 (by positivity)
  have hwW : w ≤ (args.width : ℚ) := mul_le_of_le_one_left (by positivity) hr1
  have hfl0 : (0 : ℤ) ≤ ⌊w⌋ := Int.floor_nonneg.2 hw0
  have hflW : ⌊w⌋ ≤ (args.width : ℤ) := by
    have := Int.floor_le_floor hwW
    rwa [Int.floor_natCast] at this
  set k : ℕ := Int.toNat ⌊w⌋ with hk
  have hkW : k ≤ args.width := by omega
  set frac : ℚ := w - ⌊w⌋ with hfrac
  set gl : List Char :=
    args.filling.getD (Int.toNat ⌊frac * (args.filling.length : ℚ)⌋) [] with hgl
  have hbar1 : repeatStr args.filled ⌊w⌋ = (List.replicate k args.filled).flatten := rfl
  have hbar1len : (List.replicate k args.filled).flatten.length = k := by
    rw [length_flatten_replicate, hfl, Nat.mul_one]
  have hbar1esc : escChar ∉ (List.replicate k args.filled).flatten :=
    fun h => hfe (mem_flatten_replicate h)
  -- the partial glyph index is in range when the remainder is positive
  have hpart : 0 < frac → gl ∈ args.filling := by
    intro hpos
    have hlt1 : frac < 1 := by
      have := Int.sub_one_lt_floor w
      simp only [hfrac]
      linarith
    have hlen0 : 0 < args.filling.length := List.length_pos.2 hfn
    have hidx : ⌊frac * (args.filling.length : ℚ)⌋ < (args.filling.length : ℤ) := by
      apply Int.floor_lt.2
      push_cast
      calc frac * (args.filling.length : ℚ) < 1 * (args.filling.length : ℚ) := by
            apply mul_lt_mul_of_pos_right hlt1
            exact_mod_cast hlen0
        _ = (args.filling.length : ℚ) := one_mul _
    have hidx' : Int.toNat ⌊frac * (args.filling.length : ℚ)⌋ < args.filling.length := by
      omega
    rw [hgl, List.getD_eq_getElem _ _ hidx']
    exact List.getElem_mem hidx'
  have hk1W : 0 < frac → k + 1 ≤ args.width := by
    intro hpos
    have hne : ⌊w⌋ < (args.width : ℤ) := by
      rcases lt_or_eq_of_le hflW with h | h
      · exact h
      · exfalso
        have hww : w = (args.width : ℚ) := le_antisymm hwW (by
          calc (args.width : ℚ) = ((⌊w⌋ : ℤ) : ℚ) := by exact_mod_cast h.symm
            _ ≤ w := Int.floor_le w)
        have hz : frac = 0 := by
          rw [hfrac, h, hww]
          push_cast
          ring
        rw [hz] at hpos
        exact lt_irrefl 0 hpos
    omega
  -- the glyph part of the bar, its length, and escape-freeness
  have hmid : escChar ∉ (if 0 < frac then gl else []) := by
    split
    case isTrue hpos => exact (hg _ (hpart hpos)).2
    case isFalse => simp
  have hmidlen : (if 0 < frac then gl else []).length = if 0 < frac then 1 else 0 := by
    split
    case isTrue hpos => exact (hg _ (hpart hpos)).1
    case isFalse => rfl
  have hbar2esc :
      escChar ∉ (List.replicate k args.filled).flatten ++ (if 0 < frac then gl else []) := by
    intro hmem
    rcases List.mem_append.1 hmem with h | h
    · exact hbar1esc h
    · exact hmid h
  have hbar2len :
      ((List.replicate k args.filled).flatten ++ (if 0 < frac then gl else [])).length
        = k + (if 0 < frac then 1 else 0) := by
    rw [List.length_append, hbar1len, hmidlen]
  have hbar2W : k + (if 0 < frac then 1 else 0) ≤ args.width := by
    split
    case isTrue hpos => exact hk1W hpos
    case isFalse => simpa using hkW
  have hpad :
      ((args.width : ℤ)
          - (swM ((List.replicate k args.filled).flatten ++ (if 0 < frac then gl else [])) : ℤ)).toNat
        = args.width - (k + (if 0 < frac then 1 else 0)) := by
    rw [swM_of_not_mem _ hbar2esc, hbar2len]
    omega
  have hmain : drawBarChars args =
      (List.replicate k args.filled).flatten ++ (if 0 < frac then gl else [])
        ++ List.replicate (args.width - (k + (if 0 < frac then 1 else 0))) ' ' := by
    rw [drawBarChars]
    simp only [← hr, ← hw, hclamp, ← hfrac, hbar1, ← hgl, spaceStr_toNat, hpad,
      List.append_assoc]
  refine ⟨by rw [hmain, List.append_assoc], ?_, fun hpos => (hg _ (hpart hpos)).1⟩
  have hallesc : escChar ∉ (List.replicate k args.filled).flatten
      ++ (if 0 < frac then gl else [])
      ++ List.replicate (args.width - (k + (if 0 < frac then 1 else 0))) ' ' := by
    intro hmem
    rcases List.mem_append.1 hmem with h | h
    · exact hbar2esc h
    · have hsp : escChar = ' ' := List.eq_of_mem_replicate h
      exact absurd hsp.symm (by decide)
  rw [hmain, swM_of_not_mem _ hallesc]
  simp only [List.length_append, hbar1len, hmidlen, List.length_replicate]
  omega

/-- Witness for C1: a session at amount 1 of max 3 with bar width 10. -/
theorem progress_draw_bar_body_witness :
    swM (drawBarChars { progressDefaults with amount := 1, max := 3, width := 10 }) = 10 :=
  (progress_draw_bar_body { progressDefaults with amount := 1, max := 3, width := 10 }
    (by norm_num) (by norm_num) (by norm_num) (by decide) (by decide) (by decide)
    (by decide)).2.1

/-- One rendered progress line, as assembled by `progress.draw`
(src/cli.js lines 608-673).  Styles stay symbolic: each piece of text is
paired with the style list the source would hand to `applyStyles`.  The
`remainSeg` content includes its surrounding " (" and " remain)" literals;
`pctSeg` and `textSeg` are preceded by one literal space when present;
`tailPad` is the space padding appended to overwrite a longer previous
line. -/
structure Line where
  indent : List Char
  spinGlyph : List Char
  spinStyle : List String
  brace0 : List Char
  brace1 : List Char
  braceStyle : List String
  bar : List Char
  barStyle : List String
  pctSeg : Option (List Char)
  pctStyle : List String
  remainSeg : Option (List Char)
  remainStyle : List String
  textSeg : Option (List Char)
  textStyle : List String
  tailPad : ℕ
deriving DecidableEq, Repr

/-- Display width of a rendered line: the sum of the display widths of its
visible pieces (chalk's escape sequences contribute zero width, so the
symbolic styles do not appear). -/
def lineWidth (l : Line) : ℕ :=
  swM l.indent + swM l.spinGlyph + 1 + swM l.brace0 + swM l.bar + swM l.brace1
    + (match l.pctSeg with | some p => 1 + swM p | none => 0)
    + (match l.remainSeg with | some r => swM r | none => 0)
    + (match l.textSeg with | some t => 1 + swM t | none => 0)
    + l.tailPad

/-- JavaScript `String.prototype.trim` on our char lists (whitespace at both
ends removed), used for `args.text.trim()` (src/cli.js line 659). -/
def trimWs (l : List Char) : List Char :=
  ((l.dropWhile Char.isWhitespace).reverse.dropWhile Char.isWhitespace).reverse

/-- The remaining-time block of `progress.draw` (src/cli.js lines 643-654):
when the session is strictly between 0 and max, at least 5 seconds have
elapsed and `remain` is enabled, recompute the cached estimate at most once
per second and render it; returns the optional rendered segment (with its
literal " (" and " remain)" wrapping) and the configuration with its cache
fields updated.  `rf` models the external `Tools.getNiceRemainingTime`
helper (elapsed, amount, max). -/
def remainStep (rf : ℚ → ℚ → ℚ → List Char) (now : ℚ) (args : PArgs) :
    Option (List Char) × PArgs :=
  if 0 < args.amount ∧ args.amount < args.max
      ∧ 5 ≤ now - args.timeStart ∧ args.remain = true then
    let cache :=
      if 1 ≤ now - args.lastRemainCheck then
        (rf (now - args.timeStart) args.amount args.max, now)
      else (args.lastRemainString, args.lastRemainCheck)
    ((if cache.1 = [] then none
      else some ((' ' :: '(' :: cache.1) ++ [' ', 'r', 'e', 'm', 'a', 'i', 'n', ')'])),
     { args with lastRemainString := cache.1, lastRemainCheck := cache.2 })
  else (none, args)

/-- The unpadded line `progress.draw` assembles (src/cli.js lines 614-660),
given the spinner glyph picked for this tick and the remaining-time
segment.  `pf` models the external `Tools.pct` helper. -/
def mkBaseLine (pf : ℚ → ℚ → List Char) (args : PArgs)
    (spinGlyph : List Char) (remainSeg : Option (List Char)) : Line where
  indent := args.indent
  spinGlyph := spinGlyph
  spinStyle := args.styles.spinner
  brace0 := args.braces.1
  brace1 := args.braces.2
  braceStyle := args.styles.braces
  bar := drawBarChars args
  barStyle := if args.amount = args.max then args.styles.indeterminate else args.styles.bar
  pctSeg := if args.pct then some (pf args.amount args.max) else none
  pctStyle := args.styles.pct
  remainSeg := remainSeg
  remainStyle := args.styles.remain
  textSeg := if args.text = [] then none else some (trimWs args.text)
  textStyle := args.styles.text
  tailPad := 0

/-- The trailing space padding of a redraw (src/cli.js lines 663-669): when
the fresh line is narrower than the previous one, pad it to the previous
width so the old line is fully overwritten. -/
def padFor (base : Line) (lastLine : Option Line) : ℕ :=
  match lastLine with
  | some ll => if lineWidth base < lineWidth ll then lineWidth ll - lineWidth base else 0
  | none => 0

/-- The pure core of `progress.draw` (src/cli.js lines 608-673): builds the
line from the configuration, the spinner frame and the previously drawn
line (padding the new line when the previous one was wider), and returns
it together with the updated configuration. -/
def drawCore (pf : ℚ → ℚ → List Char) (rf : ℚ → ℚ → ℚ → List Char)
    (now : ℚ) (args : PArgs) (spinFrame : ℕ) (lastLine : Option Line) :
    Line × PArgs :=
  let r := remainStep rf now args
  let base := mkBaseLine pf args (args.spinner.getD (spinFrame % args.spinner.length) []) r.1
  ({ base with tailPad := padFor base lastLine }, r.2)

/-- Everything the progress session writes to the terminal, kept
structural: full line redraws, the all-spaces overwrite used by `erase`,
and the cursor hide/show control sequences. -/
inductive Out where
  | drawWrite (l : Line)
  | eraseWrite (width : ℕ)
  | hideCursor
  | showCursor
deriving DecidableEq, Repr

/-- The mutable state of the progress singleton: `running`, `args`,
`spinFrame`, `lastLine` (src/cli.js lines 573-576; `lastLine` is the empty
string — modelled `none` — until the first draw). -/
structure ProgressState where
  running : Bool
  args : PArgs
  spinFrame : ℕ
  lastLine : Option Line
deriving DecidableEq, Repr

/-- `progress.draw` (src/cli.js lines 608-673). -/
def draw (pf : ℚ → ℚ → List Char) (rf : ℚ → ℚ → ℚ → List Char)
    (tty : Bool) (now : ℚ) (s : ProgressState) : ProgressState × List Out :=
  if s.running = false then (s, [])
  else if tty = false then (s, [])
  else
    let lp := drawCore pf rf now s.args s.spinFrame s.lastLine
    ({ s with args := lp.2, spinFrame := s.spinFrame + 1, lastLine := some lp.1 },
     if s.args.quiet then [] else [Out.drawWrite lp.1])

/-- The argument of `progress.update`: a bare number, or an options object
whose keys are merged into `this.args` (only the keys that bear on the
amount/max invariant are modelled; the source merges arbitrary keys). -/
inductive UpdateArg where
  | num (amount : ℚ)
  | opts (amount : Option ℚ) (max : Option ℚ) (text : Option (List Char))
deriving DecidableEq, Repr

/-- `progress.update` (src/cli.js lines 675-690): merge, then clamp
`amount` into `[0, max]`. -/
def update (tty : Bool) (u : UpdateArg) (s : ProgressState) : ProgressState :=
  if s.running = false then s
  else if tty = false then s
  else
    let args1 :=
      match u with
      | .num q => { s.args with amount := q }
      | .opts a m t =>
          { s.args with
              amount := a.getD s.args.amount
              max := m.getD s.args.max
              text := t.getD s.args.text }
    { s with args := { args1 with amount := max 0 (min args1.max args1.amount) } }

/-- `progress.erase` (src/cli.js lines 692-699): overwrite the current line
with spaces; the session state is untouched. -/
def erase (tty : Bool) (s : ProgressState) : ProgressState × List Out :=
  if s.running = false then (s, [])
  else if tty = false then (s, [])
  else
    match s.lastLine with
    | some ll => if s.args.quiet then (s, []) else (s, [Out.eraseWrite (lineWidth ll)])
    | none => (s, [])

/-- An all-falsy configuration: `this.args = {}` at the end of a session
(src/cli.js line 711). -/
def emptyArgs : PArgs where
  spinner := []
  braces := ([], [])
  filling := []
  filled := []
  indent := []
  styles := emptyStyles
  pct := false
  width := 0
  freq := 0
  remain := false
  color := false
  unicode := false
  quiet := false
  amount := 0
  max := 0
  text := []
  timeStart := 0
  lastRemainCheck := 0
  lastRemainString := []

/-- `progress.end` (src/cli.js lines 701-716).  `eraseFlag` models
`erase !== false`.  After `this.args = {}` the quiet check reads the fresh
empty hash, so the cursor is always restored. -/
def endP (tty : Bool) (eraseFlag : Bool) (s : ProgressState) : ProgressState × List Out :=
  if s.running = false then (s, [])
  else if tty = false then (s, [])
  else
    let e := if eraseFlag then erase tty s else (s, [])
    ({ running := false, args := emptyArgs, spinFrame := e.1.spinFrame, lastLine := none },
     e.2 ++ [Out.showCursor])

/-- Caller overrides for `progress.start` (src/cli.js line 547):
`Tools.mergeHashInto(args, overrides)` copies every present key over the
defaults.  A `none` field is an absent key.  (A numeric `indent` is
converted by the source to the equivalent space string; only the string
form is modelled.) -/
structure POverrides where
  spinner : Option (List (List Char)) := none
  braces : Option (List Char × List Char) := none
  filling : Option (List (List Char)) := none
  filled : Option (List Char) := none
  indent : Option (List Char) := none
  styles : Option PStyles := none
  pct : Option Bool := none
  width : Option ℕ := none
  freq : Option ℕ := none
  remain : Option Bool := none
  color : Option Bool := none
  unicode : Option Bool := none
  quiet : Option Bool := none
  amount : Option ℚ := none
  max : Option ℚ := none
  text : Option (List Char) := none
  timeStart : Option ℚ := none
deriving DecidableEq, Repr

/-- `Tools.mergeHashInto(args, overrides)` over the copied defaults. -/
def applyOverrides (d : PArgs) (o : POverrides) : PArgs where
  spinner := o.spinner.getD d.spinner
  braces := o.braces.getD d.braces
  filling := o.filling.getD d.filling
  filled := o.filled.getD d.filled
  indent := o.indent.getD d.indent
  styles := o.styles.getD d.styles
  pct := o.pct.getD d.pct
  width := o.width.getD d.width
  freq := o.freq.getD d.freq
  remain := o.remain.getD d.remain
  color := o.color.getD d.color
  unicode := o.unicode.getD d.unicode
  quiet := o.quiet.getD d.quiet
  amount := o.amount.getD d.amount
  max := o.max.getD d.max
  text := o.text.getD d.text
  timeStart := o.timeStart.getD d.timeStart
  lastRemainCheck := d.lastRemainCheck
  lastRemainString := d.lastRemainString

/-- `progress.asciiOverrides` (src/cli.js lines 540-545). -/
def asciiSpinner : List (List Char) := [['|'], ['/'], ['-'], ['\\']]

/-- ASCII partial-fill sequence (src/cli.js line 542). -/
def asciiFilling : List (List Char) := [[' '], ['.'], [':']]

/-- ASCII full-fill glyph (src/cli.js line 543). -/
def asciiFilled : List Char := ['#']

/-- ASCII braces (src/cli.js line 544). -/
def asciiBraces : List Char × List Char := (['['], [']'])

/-- Hard tabs in the indent become four spaces (src/cli.js line 571). -/
def expandTabs (l : List Char) : List Char :=
  l.flatMap (fun c => if c = '\t' then [' ', ' ', ' ', ' '] else [c])

/-- The configuration built by `progress.start` (src/cli.js lines 552-571):
defaults, then caller overrides, then the falsy-key fix-ups, the
`color:false` style wipe, the `unicode:false` ASCII merge (which is applied
after the caller's overrides), and indent normalization. -/
def startArgs (now : ℚ) (o : POverrides) : PArgs :=
  let a0 := applyOverrides progressDefaults o
  -- `if (!args.amount) args.amount = 0` only rewrites falsy values to 0
  -- and changes nothing in the rational model; same for `text`.
  let a1 := { a0 with
    max := if a0.max = 0 then 1 else a0.max
    timeStart := if a0.timeStart = 0 then now else a0.timeStart }
  let a2 := if a1.color then a1 else { a1 with styles := emptyStyles }
  let a3 := if a2.unicode then a2 else
    { a2 with spinner := asciiSpinner, filling := asciiFilling,
              filled := asciiFilled, braces := asciiBraces }
  { a3 with indent := expandTabs a3.indent }

/-- `progress.start` (src/cli.js lines 547-606).  The repeating redraw
timer and the signal/exit hooks only re-invoke `draw`/`end` over real time
and are outside the model. -/
def start (pf : ℚ → ℚ → List Char) (rf : ℚ → ℚ → ℚ → List Char)
    (tty : Bool) (now : ℚ) (o : POverrides) (s : ProgressState) :
    ProgressState × List Out :=
  if tty = false then (s, [])
  else
    let args := startArgs now o
    let s1 : ProgressState :=
      { running := true, args := args, spinFrame := 0, lastLine := none }
    let d := draw pf rf tty now s1
    (d.1, d.2 ++ (if args.quiet then [] else [Out.hideCursor]))

/-- The inert module state: `progress.args = {}` and `running` undefined
(falsy) before any `start` (src/cli.js lines 511-513). -/
def initialState : ProgressState :=
  { running := false, args := emptyArgs, spinFrame := 0, lastLine := none }

/-- C3.  While running, `draw` styles the bar body with the indeterminate
style exactly when `amount` equals `max` (strict equality as in the
source's `===`), and at `amount = max` the remaining-time segment is never
rendered, even with `remain` enabled. -/
theorem draw_indeterminate_iff (pf : ℚ → ℚ → List Char)
    (rf : ℚ → ℚ → ℚ → List Char) (now : ℚ) (s : ProgressState)
    (h1 : s.running = true) :
    (draw pf rf true now s).1.lastLine
        = some (drawCore pf rf now s.args s.spinFrame s.lastLine).1
    ∧ (s.args.amount = s.args.max →
        (drawCore pf rf now s.args s.spinFrame s.lastLine).1.barStyle
            = s.args.styles.indeterminate
          ∧ (drawCore pf rf now s.args s.spinFrame s.lastLine).1.remainSeg = none)
    ∧ (s.args.amount ≠ s.args.max →
        (drawCore pf rf now s.args s.spinFrame s.lastLine).1.barStyle
          = s.args.styles.bar)
    ∧ (s.args.styles.indeterminate ≠ s.args.styles.bar →
        ((drawCore pf rf now s.args s.spinFrame s.lastLine).1.barStyle
            = s.args.styles.indeterminate ↔ s.args.amount = s.args.max)) := by
  refine ⟨by simp [draw, h1], ?_, ?_, ?_⟩
  · intro heq
    constructor
    · simp [drawCore, mkBaseLine, heq]
    · simp [drawCore, mkBaseLine, remainStep, heq, lt_irrefl]
  · intro hne
    simp [drawCore, mkBaseLine, hne]
  · intro hsty
    by_cases heq : s.args.amount = s.args.max
    · simp [drawCore, mkBaseLine, heq]
    · simp [drawCore, mkBaseLine, heq]
      exact fun hcon => hsty hcon.symm

/-- Witness for C3: a running session at its ceiling. -/
theorem draw_indeterminate_iff_witness :
    ((draw (fun _ _ => []) (fun _ _ _ => []) true 0
        { running := true, args := { progressDefaults with amount := 1, max := 1 },
          spinFrame := 0, lastLine := none }).1.lastLine
      = some (drawCore (fun _ _ => []) (fun _ _ _ => []) 0
          { progressDefaults with amount := 1, max := 1 } 0 none).1)
    ∧ ((drawCore (fun _ _ => []) (fun _ _ _ => []) 0
          { progressDefaults with amount := 1, max := 1 } 0 none).1.barStyle
        = defaultStyles.indeterminate
      ∧ (drawCore (fun _ _ => []) (fun _ _ _ => []) 0
          { progressDefaults with amount := 1, max := 1 } 0 none).1.remainSeg = none) := by
  have h := draw_indeterminate_iff (fun _ _ => []) (fun _ _ _ => []) 0
    { running := true, args := { progressDefaults with amount := 1, max := 1 },
      spinFrame := 0, lastLine := none } rfl
  exact ⟨h.1, h.2.1 rfl⟩

/-- A running sample session used by concrete update evaluations. -/
def sampleState : ProgressState :=
  { running := true, args := { progressDefaults with amount := 1/2, max := 1 },
    spinFrame := 0, lastLine := none }

/-- Counterexample to C4 as stated: `update` with an options object that
merges `max := -1` stores `amount = 0` and `max = -1`, so the claimed
invariant `amount ≤ max` fails after the merge. -/
theorem update_negative_max_counterexample :
    (update true (UpdateArg.opts none (some (-1)) none) sampleState).args.amount = 0
    ∧ (update true (UpdateArg.opts none (some (-1)) none) sampleState).args.max = -1
    ∧ ¬ ((update true (UpdateArg.opts none (some (-1)) none) sampleState).args.amount
          ≤ (update true (UpdateArg.opts none (some (-1)) none) sampleState).args.max) := by
  have hmin : min (-1 : ℚ) (1/2) = -1 := min_eq_left (by norm_num)
  have hmax : max (0 : ℚ) (-1) = 0 := max_eq_left (by norm_num)
  refine ⟨?_, ?_, ?_⟩ <;>
    simp [update, sampleState, progressDefaults, hmin, hmax]

/-- C4 (amended).  For a running session, `update` always stores
`amount = max(0, min(max, amount))`; whenever the merged `max` is
non-negative this yields the invariant `0 ≤ amount ≤ max`.  (With a merged
negative `max` the clamp pins `amount` to `0 > max`, which is what forces
the amendment.) -/
theorem update_clamps_amount (s : ProgressState) (u : UpdateArg)
    (hr : s.running = true)
    (hm : 0 ≤ (update true u s).args.max) :
    0 ≤ (update true u s).args.amount
    ∧ (update true u s).args.amount ≤ (update true u s).args.max := by
  cases u with
  | num q =>
    simp only [update, hr] at hm ⊢
    simp only [Bool.true_eq_false, if_false] at hm ⊢
    exact ⟨le_max_left _ _, max_le hm (min_le_left _ _)⟩
  | opts a m t =>
    simp only [update, hr] at hm ⊢
    simp only [Bool.true_eq_false, if_false] at hm ⊢
    exact ⟨le_max_left _ _, max_le hm (min_le_left _ _)⟩

/-- Witness for C4 (amended): updating past the ceiling clamps to it. -/
theorem update_clamps_amount_witness :
    0 ≤ (update true (UpdateArg.num 7) sampleState).args.amount
    ∧ (update true (UpdateArg.num 7) sampleState).args.amount
        ≤ (update true (UpdateArg.num 7) sampleState).args.max :=
  update_clamps_amount sampleState (UpdateArg.num 7) rfl (by decide)

/-- C5.  On a non-interactive terminal `start` changes nothing and leaves
`running` as it was; and whenever the session is not running or the
terminal is non-interactive, `update`, `draw`, `erase` and `end` return
with the state unchanged and no output — silent no-ops, never errors. -/
theorem progress_fail_soft (pf : ℚ → ℚ → List Char)
    (rf : ℚ → ℚ → ℚ → List Char) (now : ℚ) (s : ProgressState)
    (o : POverrides) (u : UpdateArg) (ef : Bool) (tty : Bool)
    (h : s.running = false ∨ tty = false) :
    (tty = false → start pf rf tty now o s = (s, []))
    ∧ update tty u s = s
    ∧ draw pf rf tty now s = (s, [])
    ∧ erase tty s = (s, [])
    ∧ endP tty ef s = (s, []) := by
  rcases h with h | h
  · refine ⟨fun ht => by simp [start, ht], ?_, ?_, ?_, ?_⟩ <;>
      simp [update, draw, erase, endP, h]
  · refine ⟨fun _ => by simp [start, h], ?_, ?_, ?_, ?_⟩ <;>
      (rcases hr : s.running with _ | _ <;> simp [update, draw, erase, endP, h, hr])

/-- Witness for C5 on the inert module state with a non-interactive
terminal. -/
theorem progress_fail_soft_witness :
    start (fun _ _ => []) (fun _ _ _ => []) false 0 {} initialState = (initialState, [])
    ∧ update false (UpdateArg.num 5) initialState = initialState
    ∧ draw (fun _ _ => []) (fun _ _ _ => []) false 0 initialState = (initialState, [])
    ∧ erase false initialState = (initialState, [])
    ∧ endP false true initialState = (initialState, []) := by
  have h := progress_fail_soft (fun _ _ => []) (fun _ _ _ => []) 0 initialState
    {} (UpdateArg.num 5) true false (Or.inr rfl)
  exact ⟨h.1 rfl, h.2.1, h.2.2.1, h.2.2.2.1, h.2.2.2.2⟩

/-- C8 (amended).  With `unicode: false`, `start` merges the ASCII glyph
set after the caller's overrides, so the ASCII spinner, braces, filling
and full-fill glyphs are installed unconditionally — caller-supplied
values for those four keys are clobbered, not kept. -/
theorem start_ascii_merge (now : ℚ) (o : POverrides)
    (h : o.unicode = some false) :
    (startArgs now o).spinner = asciiSpinner
    ∧ (startArgs now o).filling = asciiFilling
    ∧ (startArgs now o).filled = asciiFilled
    ∧ (startArgs now o).braces = asciiBraces := by
  have hu : (applyOverrides progressDefaults o).unicode = false := by
    simp [applyOverrides, h]
  by_cases hc : (applyOverrides progressDefaults o).color <;>
    simp [startArgs, hu, hc]

/-- A caller configuration that supplies its own spinner and also turns
Unicode off. -/
def customAsciiOverrides : POverrides :=
  { unicode := some false, spinner := some [['X']] }

/-- Counterexample to C8 as stated: the caller's explicit spinner `["X"]`
is not kept — the ASCII spinner replaces it. -/
theorem start_ascii_clobbers_counterexample :
    (startArgs 0 customAsciiOverrides).spinner = asciiSpinner
    ∧ (startArgs 0 customAsciiOverrides).spinner ≠ [['X']] := by
  refine ⟨?_, ?_⟩ <;> decide

/-- Witness for C8 (amended) at the same concrete overrides. -/
theorem start_ascii_merge_witness :
    (startArgs 0 customAsciiOverrides).spinner = asciiSpinner
    ∧ (startArgs 0 customAsciiOverrides).filling = asciiFilling
    ∧ (startArgs 0 customAsciiOverrides).filled = asciiFilled
    ∧ (startArgs 0 customAsciiOverrides).braces = asciiBraces :=
  start_ascii_merge 0 customAsciiOverrides rfl

/-- `erase` never changes the session state. -/
theorem erase_fst (tty : Bool) (s : ProgressState) : (erase tty s).1 = s := by
  rw [erase]
  repeat' split
  all_goals rfl

/-- The base line only reads configuration fields other than the
remaining-time cache. -/
theorem mkBaseLine_cache (pf : ℚ → ℚ → List Char) (args : PArgs)
    (g : List Char) (seg : Option (List Char)) (rs : List Char) (rc : ℚ) :
    mkBaseLine pf { args with lastRemainString := rs, lastRemainCheck := rc } g seg
      = mkBaseLine pf args g seg := rfl

/-- `remainStep` touches only the two remaining-time cache fields of the
configuration. -/
theorem remainStep_snd (rf : ℚ → ℚ → ℚ → List Char) (now : ℚ) (args : PArgs) :
    (remainStep rf now args).2
      = { args with
          lastRemainString := (remainStep rf now args).2.lastRemainString,
          lastRemainCheck := (remainStep rf now args).2.lastRemainCheck } := by
  rw [remainStep]
  split
  · rfl
  · rfl

/-- Running `remainStep` again at the same instant, from the configuration
it produced, reproduces the same segment and configuration (the throttle
reuses the cache it just wrote). -/
theorem remainStep_idem (rf : ℚ → ℚ → ℚ → List Char) (now : ℚ) (args : PArgs) :
    remainStep rf now (remainStep rf now args).2 = remainStep rf now args := by
  by_cases hc : 0 < args.amount ∧ args.amount < args.max
      ∧ 5 ≤ now - args.timeStart ∧ args.remain = true
  · by_cases ht : 1 ≤ now - args.lastRemainCheck
    · have h2 : (remainStep rf now args).2
          = { args with
              lastRemainString := rf (now - args.timeStart) args.amount args.max,
              lastRemainCheck := now } := by
        simp [remainStep, hc, ht]
      rw [h2]
      have hz : ¬ (1 : ℚ) ≤ now - now := by
        rw [sub_self]
        norm_num
      simp [remainStep, hc, ht, hz]
    · have h2 : (remainStep rf now args).2 = args := by
        simp [remainStep, hc, ht]
        rw [← hc.2.2.2]
      rw [h2]
  · have h2 : (remainStep rf now args).2 = args := by
      simp [remainStep, hc]
    rw [h2]

/-- Padding arithmetic for rendered lines. -/
theorem lineWidth_tailPad (l : Line) (p : ℕ) :
    lineWidth { l with tailPad := p } = lineWidth { l with tailPad := 0 } + p := by
  simp only [lineWidth]
  omega

/-- Two base lines that differ only in equally wide spinner glyphs have
equal width. -/
theorem lineWidth_mkBaseLine_spin (pf : ℚ → ℚ → List Char) (args : PArgs)
    (g1 g2 : List Char) (seg : Option (List Char)) (h : swM g1 = swM g2) :
    lineWidth (mkBaseLine pf args g2 seg) = lineWidth (mkBaseLine pf args g1 seg) := by
  simp only [lineWidth, mkBaseLine, h]

/-- A glyph picked from a non-empty spinner list is one of its elements. -/
theorem spinner_getD_mem (sp : List (List Char)) (i : ℕ) (h : sp ≠ []) :
    sp.getD (i % sp.length) [] ∈ sp := by
  have hlen : 0 < sp.length := List.length_pos.2 h
  have hidx : i % sp.length < sp.length := Nat.mod_lt _ hlen
  rw [List.getD_eq_getElem _ _ hidx]
  exact List.getElem_mem hidx

/-- A line whose padding field is already zero is unchanged by resetting
it. -/
theorem line_tailPad_zero (l : Line) (h : l.tailPad = 0) :
    ({ l with tailPad := 0 } : Line) = l := by
  cases l
  simp only at h
  simp [h]

/-- Redrawing over a line that only adds padding `p` to an equally wide
base reproduces the same padding `p`. -/
theorem padFor_redraw (base1 base2 : Line) (p : ℕ)
    (hb1 : base1.tailPad = 0) (h : lineWidth base2 = lineWidth base1) :
    padFor base2 (some { base1 with tailPad := p }) = p := by
  have hW : lineWidth { base1 with tailPad := p } = lineWidth base1 + p := by
    have hT := lineWidth_tailPad base1 p
    rwa [line_tailPad_zero base1 hb1] at hT
  show (if lineWidth base2 < lineWidth { base1 with tailPad := p } then
          lineWidth { base1 with tailPad := p } - lineWidth base2 else 0) = p
  rw [hW, h]
  split <;> omega

set_option maxRecDepth 4000 in
/-- Re-running `drawCore` at the same instant, from the state the previous
run produced, yields the same line except that the spinner advances one
frame, and the same configuration (for spinner glyphs of uniform display
width 1, as all shipped spinner sets have). -/
theorem drawCore_again (pf : ℚ → ℚ → List Char) (rf : ℚ → ℚ → ℚ → List Char)
    (now : ℚ) (args : PArgs) (f : ℕ) (lastLine : Option Line)
    (hsp : args.spinner ≠ []) (hw : ∀ g ∈ args.spinner, swM g = 1) :
    drawCore pf rf now (drawCore pf rf now args f lastLine).2 (f + 1)
        (some (drawCore pf rf now args f lastLine).1)
      = ({ (drawCore pf rf now args f lastLine).1 with
            spinGlyph := args.spinner.getD ((f + 1) % args.spinner.length) [] },
         (drawCore pf rf now args f lastLine).2) := by
  have hidem := remainStep_idem rf now args
  have hg1 : swM (args.spinner.getD (f % args.spinner.length) []) = 1 :=
    hw _ (spinner_getD_mem _ _ hsp)
  have hg2 : swM (args.spinner.getD ((f + 1) % args.spinner.length) []) = 1 :=
    hw _ (spinner_getD_mem _ _ hsp)
  have hshape := remainStep_snd rf now args
  simp only [drawCore]
  rw [hidem]
  rw [hshape, mkBaseLine_cache]
  have hsp2 : ({ args with
      lastRemainString := (remainStep rf now args).2.lastRemainString,
      lastRemainCheck := (remainStep rf now args).2.lastRemainCheck } : PArgs).spinner
      = args.spinner := rfl
  rw [hsp2]
  have hwidth :
      lineWidth (mkBaseLine pf args
          (args.spinner.getD ((f + 1) % args.spinner.length) [])
          (remainStep rf now args).1)
        = lineWidth (mkBaseLine pf args
            (args.spinner.getD (f % args.spinner.length) [])
            (remainStep rf now args).1) :=
    lineWidth_mkBaseLine_spin pf args _ _ _ (hg1.trans hg2.symm)
  rw [padFor_redraw _ _ _ rfl hwidth]
  rfl

/-- Replacing the spinner glyph by an equally wide one keeps the line
width. -/
theorem lineWidth_set_spin (l : Line) (g : List Char)
    (h : swM g = swM l.spinGlyph) :
    lineWidth { l with spinGlyph := g } = lineWidth l := by
  simp only [lineWidth, h]

/-- A running `draw` on an interactive terminal: the resulting state in
constructor form. -/
theorem draw_run_proj (pf : ℚ → ℚ → List Char) (rf : ℚ → ℚ → ℚ → List Char)
    (now : ℚ) (s : ProgressState) (h1 : s.running = true) :
    (draw pf rf true now s).1
      = ProgressState.mk true (drawCore pf rf now s.args s.spinFrame s.lastLine).2
          (s.spinFrame + 1)
          (some (drawCore pf rf now s.args s.spinFrame s.lastLine).1) := by
  simp [draw, h1]

/-- C7 (amended).  For a running, non-quiet session, `erase` changes no
state, and an immediate redraw (no state change, no passage of time)
reproduces the previous line except that the spinner advances one frame;
the new line has the same display width as the old and the erase wrote
exactly that many spaces, so no residual characters remain.  The line is
identical only up to the spinner glyph — the source's `spinFrame++` makes
byte-identical output impossible for spinners with more than one distinct
glyph. -/
theorem erase_then_draw (pf : ℚ → ℚ → List Char) (rf : ℚ → ℚ → ℚ → List Char)
    (now : ℚ) (s : ProgressState)
    (h1 : s.running = true) (hq : s.args.quiet = false)
    (hsp : s.args.spinner ≠ []) (hw : ∀ g ∈ s.args.spinner, swM g = 1) :
    (erase true (draw pf rf true now s).1).1 = (draw pf rf true now s).1
    ∧ (draw pf rf true now (erase true (draw pf rf true now s).1).1).1.lastLine
        = some { (drawCore pf rf now s.args s.spinFrame s.lastLine).1 with
            spinGlyph := s.args.spinner.getD ((s.spinFrame + 1) % s.args.spinner.length) [] }
    ∧ lineWidth { (drawCore pf rf now s.args s.spinFrame s.lastLine).1 with
            spinGlyph := s.args.spinner.getD ((s.spinFrame + 1) % s.args.spinner.length) [] }
        = lineWidth (drawCore pf rf now s.args s.spinFrame s.lastLine).1
    ∧ (erase true (draw pf rf true now s).1).2
        = [Out.eraseWrite (lineWidth (drawCore pf rf now s.args s.spinFrame s.lastLine).1)] := by
  have hg1 : swM ((drawCore pf rf now s.args s.spinFrame s.lastLine).1.spinGlyph) = 1 := by
    have hmem : (drawCore pf rf now s.args s.spinFrame s.lastLine).1.spinGlyph
        ∈ s.args.spinner := spinner_getD_mem _ _ hsp
    exact hw _ hmem
  have hg2 : swM (s.args.spinner.getD ((s.spinFrame + 1) % s.args.spinner.length) []) = 1 :=
    hw _ (spinner_getD_mem _ _ hsp)
  have hquiet : (drawCore pf rf now s.args s.spinFrame s.lastLine).2.quiet = false := by
    have hc := congrArg PArgs.quiet (remainStep_snd rf now s.args)
    simp only at hc
    exact hc.trans hq
  refine ⟨erase_fst _ _, ?_, lineWidth_set_spin _ _ (hg2.trans hg1.symm), ?_⟩
  · rw [erase_fst, draw_run_proj pf rf now s h1]
    rw [draw_run_proj _ _ _ _ rfl]
    simp only [drawCore_again pf rf now s.args s.spinFrame s.lastLine hsp hw]
  · rw [draw_run_proj pf rf now s h1]
    simp [erase, hquiet]

/-- A running two-glyph-spinner session used for concrete redraw
evaluations (bar width 0 keeps the bar body empty). -/
def spinTwoState : ProgressState :=
  { running := true,
    args := { progressDefaults with
      spinner := [['a'], ['b']], amount := 0, max := 1, width := 0 },
    spinFrame := 0, lastLine := none }

/-- Counterexample to C7 as stated: after a draw, erasing and immediately
redrawing (same instant, no state change in between) does not reproduce a
line of identical content — the spinner glyph advances from 'a' to 'b'. -/
theorem erase_then_draw_counterexample :
    (draw (fun _ _ => []) (fun _ _ _ => []) true 0
        (erase true (draw (fun _ _ => []) (fun _ _ _ => []) true 0 spinTwoState).1).1).1.lastLine
      ≠ (draw (fun _ _ => []) (fun _ _ _ => []) true 0 spinTwoState).1.lastLine := by
  have hw : ∀ g ∈ spinTwoState.args.spinner, swM g = 1 := by
    intro g hg
    have hcase : g = ['a'] ∨ g = ['b'] := by
      simpa [spinTwoState, progressDefaults] using hg
    rcases hcase with h | h <;> subst h <;>
      rw [swM_of_not_mem _ (by decide)] <;> rfl
  rw [erase_fst, draw_run_proj _ _ _ spinTwoState rfl]
  rw [draw_run_proj _ _ _ _ rfl]
  rw [show spinTwoState.spinFrame = 0 from rfl,
      show spinTwoState.lastLine = none from rfl]
  simp only [drawCore_again (fun _ _ => []) (fun _ _ _ => []) 0
    spinTwoState.args 0 none (by decide) hw]
  intro hcon
  simp only [Option.some.injEq] at hcon
  have hproj := congrArg Line.spinGlyph hcon
  have hb : ({ (drawCore (fun _ _ => []) (fun _ _ _ => []) 0
      spinTwoState.args 0 none).1 with
        spinGlyph := spinTwoState.args.spinner.getD
          ((0 + 1) % spinTwoState.args.spinner.length) []
      } : Line).spinGlyph = ['b'] := rfl
  have ha : (drawCore (fun _ _ => []) (fun _ _ _ => []) 0
      spinTwoState.args 0 none).1.spinGlyph = ['a'] := rfl
  rw [hb, ha] at hproj
  exact absurd hproj (by decide)

/-- Witness for C7 (amended) on the concrete two-glyph session. -/
theorem erase_then_draw_witness :
    (erase true (draw (fun _ _ => []) (fun _ _ _ => []) true 0 spinTwoState).1).1
      = (draw (fun _ _ => []) (fun _ _ _ => []) true 0 spinTwoState).1 :=
  (erase_then_draw (fun _ _ => []) (fun _ _ _ => []) 0 spinTwoState rfl rfl (by decide)
    (by
      intro g hg
      have hcase : g = ['a'] ∨ g = ['b'] := by
        simpa [spinTwoState, progressDefaults] using hg
      rcases hcase with h | h <;> subst h <;>
        rw [swM_of_not_mem _ (by decide)] <;> rfl)).1

/-! ## Table layout engine -/

/-- The leading style-escape match of `autoFitTableRows`
(src/cli.js line 302): the regex `^(ESC\x5b[^m]*?m)` — lazily, the shortest
escape at the very start of the string.  Returns the matched escape and the
remainder. -/
def matchLeadEsc (l : List Char) : Option (List Char × List Char) :=
  match l with
  | c :: d :: r2 =>
    if c = escChar ∧ d = '[' ∧ 'm' ∈ r2 then
      some (c :: d :: (r2.takeWhile (· ≠ 'm')) ++ ['m'], (r2.dropWhile (· ≠ 'm')).tail)
    else none
  | _ => none

theorem matchLeadEsc_length {l e rest : List Char}
    (h : matchLeadEsc l = some (e, rest)) : rest.length < l.length := by
  rcases l with _ | ⟨c, _ | ⟨d, r2⟩⟩
  · exact absurd h (by simp [matchLeadEsc])
  · exact absurd h (by simp [matchLeadEsc])
  · rw [matchLeadEsc] at h
    split at h
    · have hr : rest = (r2.dropWhile (· ≠ 'm')).tail := by
        simp only [Option.some.injEq, Prod.mk.injEq] at h
        exact h.2.symm
      have h1 : (r2.dropWhile (· ≠ 'm')).length ≤ r2.length := length_dropWhile_le _ _
      have h2 : ((r2.dropWhile (· ≠ 'm')).tail).length ≤ (r2.dropWhile (· ≠ 'm')).length := by
        cases r2.dropWhile (· ≠ 'm') <;> simp
      rw [hr]
      simp only [List.length_cons]
      omega
    · exact absurd h (by simp)

/-- The leading-escape strip loop of `autoFitTableRows`
(src/cli.js lines 302-305): repeatedly peel a leading style escape,
accumulating the escapes in order; returns (stripped escapes, remainder). -/
def stripLeading (l : List Char) : List Char × List Char :=
  match h : matchLeadEsc l with
  | some (e, rest) => (e ++ (stripLeading rest).1, (stripLeading rest).2)
  | none => ([], l)
termination_by l.length
decreasing_by exact matchLeadEsc_length h

/-- Does the whole string match `ESC\x5b[^m]*?m$` — i.e. is it one style
escape running to the very end? -/
def validHead (l : List Char) : Bool :=
  match l with
  | c :: d :: r2 =>
    c == escChar && d == '[' && r2.getLast? == some 'm'
      && r2.dropLast.all (fun x => x != 'm')
  | _ => false

/-- The trailing style-escape match of `autoFitTableRows`
(src/cli.js line 307): the regex `(ESC\x5b[^m]*?m)$`, i.e. the leftmost
position from which a style escape runs to the end of the string.  Returns
the remainder and the matched escape. -/
def matchTrailEsc : List Char → Option (List Char × List Char)
  | [] => none
  | c :: rest =>
    if validHead (c :: rest) then some ([], c :: rest)
    else
      match matchTrailEsc rest with
      | some (r, e) => some (c :: r, e)
      | none => none

theorem matchTrailEsc_spec {l r e : List Char}
    (h : matchTrailEsc l = some (r, e)) : l = r ++ e ∧ e ≠ [] := by
  induction l generalizing r e with
  | nil => exact absurd h (by simp [matchTrailEsc])
  | cons c rest ih =>
    rw [matchTrailEsc] at h
    split at h
    · obtain ⟨hr, he⟩ := Prod.mk.injEq _ _ _ _ ▸ Option.some.injEq _ _ ▸ h
      exact ⟨by rw [← hr, ← he]; rfl, by rw [← he]; simp⟩
    · revert h
      split
      · intro h
        obtain ⟨hr, he⟩ := Prod.mk.injEq _ _ _ _ ▸ Option.some.injEq _ _ ▸ h
        rename_i r' e' hm
        obtain ⟨hsplit, hne⟩ := ih hm
        subst hr
        subst he
        exact ⟨by rw [List.cons_append, ← hsplit], hne⟩
      · intro h
        exact absurd h (by simp)

/-- The trailing-escape strip loop of `autoFitTableRows`
(src/cli.js lines 307-310): repeatedly peel the trailing style escape,
prepending each to the suffix so the original order is kept; returns
(remainder, stripped escapes). -/
def stripTrailing (l : List Char) : List Char × List Char :=
  match h : matchTrailEsc l with
  | some (r, e) => ((stripTrailing r).1, (stripTrailing r).2 ++ e)
  | none => (l, [])
termination_by l.length
decreasing_by
  obtain ⟨hsplit, hne⟩ := matchTrailEsc_spec h
  rw [hsplit, List.length_append]
  have : 0 < e.length := List.length_pos.2 hne
  omega

/-- The per-cell truncation of `autoFitTableRows` (src/cli.js
lines 296-313): if the cell is wider than its column cap, strip
leading/trailing style escapes, cut to `cap - 1` characters, append one
ellipsis and reattach the escapes. -/
def truncateCell (cap : ℕ) (col : List Char) : List Char :=
  if cap < swM col then
    (stripLeading col).1
      ++ (stripTrailing (stripLeading col).2).1.take (cap - 1)
      ++ '…' :: (stripTrailing (stripLeading col).2).2
  else col

/-- `max_col_widths[idy] = Math.max(max_col_widths[idy] || 0, v)` with the
JavaScript array auto-extension (absent entries are 0). -/
def updMax (l : List ℕ) (i : ℕ) (v : ℕ) : List ℕ :=
  (l ++ List.replicate (i + 1 - l.length) 0).set i (max (l.getD i 0) v)

/-- One `cols.forEach((col, idy) => ...)` pass updating a width array. -/
def updRow (f : ℕ → List Char → ℕ) : List ℕ → ℕ → List (List Char) → List ℕ
  | acc, _, [] => acc
  | acc, i, c :: cs => updRow f (updMax acc i (f i c)) (i + 1) cs

/-- The `rows.forEach(cols.forEach(...))` width fold used by
`autoFitTableRows` and `table`. -/
def foldCols (f : ℕ → List Char → ℕ) (rows : List (List (List Char))) : List ℕ :=
  rows.foldl (fun acc cols => updRow f acc 0 cols) []

/-- Natural per-column widths (src/cli.js lines 254-259). -/
def colWidths (rows : List (List (List Char))) : List ℕ :=
  foldCols (fun _ c => swM c) rows

/-- Length of a rendered border line over the given per-column dash
counts: corner + dashes + (n-1) separators + corner. -/
def borderLen (ws : List ℕ) : ℕ := if ws.isEmpty then 2 else ws.sum + ws.length + 1

/-- `measureTableWidth` (src/cli.js lines 261-280): the length of the
would-be top border with the working caps applied. -/
def measureWidth (rows : List (List (List Char))) (caps : List ℕ) : ℕ :=
  borderLen (foldCols (fun i c => min (swM c) (caps.getD i 0) + 2) rows)

theorem sum_set_nat (l : List ℕ) (i : ℕ) (hi : i < l.length) (v : ℕ) :
    (l.set i v).sum = l.sum + v - l.get ⟨i, hi⟩ ∧ l.get ⟨i, hi⟩ ≤ l.sum := by
  induction l generalizing i with
  | nil => simp at hi
  | cons a as ih =>
    cases i with
    | zero => simp [List.sum_cons]; omega
    | succ j =>
      have hj : j < as.length := by simpa using hi
      obtain ⟨h1, h2⟩ := ih j hj
      constructor
      · simp only [List.set, List.sum_cons, List.get_cons_succ, h1]
        omega
      · simp only [List.sum_cons, List.get_cons_succ]
        omega

/-- The shrink loop of `autoFitTableRows` (src/cli.js lines 283-292): while
the measured table is too wide, find the single widest working column and
decrement it by one; the e-brake returns as soon as the widest is below 2.
(`Math.max` over an empty array is `-Infinity`, modelled by the `none`
branch; the `indexOf == -1` sanity return is unreachable because the
maximum of a non-empty array is a member.) -/
def autoFitLoop (rows : List (List (List Char))) (avail : ℕ) (caps : List ℕ) : List ℕ :=
  if measureWidth rows caps ≤ avail then caps
  else
    match h : caps.maximum with
    | none => caps
    | some m =>
      if m < 2 then caps
      else autoFitLoop rows avail (caps.set (caps.indexOf m) (m - 1))
termination_by caps.sum
decreasing_by
  have hmem : m ∈ caps := List.maximum_mem h
  have hidx : caps.indexOf m < caps.length := List.indexOf_lt_length.2 hmem
  have hget : caps.get ⟨caps.indexOf m, hidx⟩ = m := List.indexOf_get hidx
  obtain ⟨h1, h2⟩ := sum_set_nat caps (caps.indexOf m) hidx (m - 1)
  rw [h1, hget]
  rename_i hnotlt
  omega

/-- The per-cell truncation pass, `cols.forEach((col, idy) => ...)` with
its running index (src/cli.js lines 295-315). -/
def truncRow (caps : List ℕ) : ℕ → List (List Char) → List (List Char)
  | _, [] => []
  | i, c :: cs => truncateCell (caps.getD i 0) c :: truncRow caps (i + 1) cs

/-- `autoFitTableRows` (src/cli.js lines 248-316): compute the available
width from the terminal and the doubled indent width, silently do nothing
below 1, shrink the working caps, then truncate the affected cells. -/
def autoFitTableRows (termWidth : ℕ) (indent : List Char)
    (rows : List (List (List Char))) : List (List (List Char)) :=
  let avail : ℤ := (termWidth : ℤ) - (swM indent : ℤ) * 2
  if avail < 1 then rows
  else
    let caps := autoFitLoop rows avail.toNat (colWidths rows)
    rows.map (fun cols => truncRow caps 0 cols)

/-- One piece of a rendered table line: raw text, or text the source hands
to `applyStyles` together with its style list (styles stay symbolic). -/
inductive TSeg where
  | raw (s : List Char)
  | styled (sty : List String) (s : List Char)
deriving DecidableEq, Repr

/-- The dash body of a border line: per-column dashes joined by the mid
glyph, closed by the right corner (src/cli.js lines 345-350). -/
def borderDashes (mid rgt : Char) : List ℕ → List Char
  | [] => [rgt]
  | [w] => List.replicate w '─' ++ [rgt]
  | w :: rest => List.replicate w '─' ++ mid :: borderDashes mid rgt rest

/-- A full border line: left corner, dashes, separators, right corner. -/
def borderChars (lft mid rgt : Char) (ws : List ℕ) : List Char :=
  lft :: borderDashes mid rgt ws

/-- The cell segments of one table row (src/cli.js lines 354-358 and
371-377): each cell is wrapped in one leading/trailing space, styled,
right-padded with raw spaces to the column width, and followed by a styled
border glyph. -/
def rowSegs (cellSty borderSty : List String) (widest : List ℕ) :
    ℕ → List (List Char) → List TSeg
  | _, [] => []
  | i, c :: cs =>
      TSeg.styled cellSty (' ' :: c ++ [' '])
        :: TSeg.raw (List.replicate (widest.getD i 0 - (2 + swM c)) ' ')
        :: TSeg.styled borderSty ['│']
        :: rowSegs cellSty borderSty widest (i + 1) cs

/-- Options of `cli.table` (src/cli.js lines 323-329), with the source's
defaulting already applied (a numeric indent is normalized by the source to
the equivalent space string; only the string form is modelled). -/
structure TableArgs where
  headerStyles : List String := ["bold", "yellow"]
  borderStyles : List String := ["gray"]
  textStyles : List String := ["cyan"]
  indent : List Char := []
  autoFit : Bool := false
deriving DecidableEq, Repr

/-- `cli.table` (src/cli.js lines 318-390): optional auto-fit, width
computation, then the five parts: top border, header row (via the mutating
`rows.shift()`), divider, body rows, bottom border.  Returns the rendered
lines and the rows array as the caller observes it afterwards (header
removed, cells truncated in place).  An empty grid makes the source throw
(`rows.shift()` is `undefined`), modelled as `none`. -/
def tableRender (termWidth : ℕ) (rows : List (List (List Char)))
    (args : TableArgs) : Option (List (List TSeg) × List (List (List Char))) :=
  let rows1 := if args.autoFit then autoFitTableRows termWidth args.indent rows else rows
  let widest := foldCols (fun _ c => swM c + 2) rows1
  match rows1 with
  | [] => none
  | hdr :: body =>
    let ind : TSeg := TSeg.raw args.indent
    let bs := args.borderStyles
    let top : List TSeg := [ind, TSeg.styled bs (borderChars '┌' '┬' '┐' widest)]
    let hline : List TSeg :=
      ind :: TSeg.styled bs ['│'] :: rowSegs args.headerStyles bs widest 0 hdr
    let divider : List TSeg := [ind, TSeg.styled bs (borderChars '├' '┼' '┤' widest)]
    let bodyLines := body.map (fun cols =>
      ind :: TSeg.styled bs ['│'] :: rowSegs args.textStyles bs widest 0 cols)
    let bottom : List TSeg := [ind, TSeg.styled bs (borderChars '└' '┴' '┘' widest)]
    some (top :: hline :: divider :: (bodyLines ++ [bottom]), body)

/-- The grid of the spec's §8 example: header ["Name","Age"], one body row
["Al","9"]. -/
def exampleRows : List (List (List Char)) :=
  [["Name".toList, "Age".toList], ["Al".toList, "9".toList]]

/-- Counterexample to C9 as stated: the default rendering of the example
grid has five lines (top border, header, divider, one body row, bottom
border), not four. -/
theorem table_example_counterexample :
    (tableRender 0 exampleRows {}).map (fun p => p.1.length) = some 5
    ∧ (tableRender 0 exampleRows {}).map (fun p => p.1.length) ≠ some 4 := by
  constructor <;>
    simp [tableRender, exampleRows, foldCols, updRow, updMax, swM, stripAnsi,
      borderChars, borderDashes, rowSegs]

/-- C9 (amended).  `table([["Name","Age"],["Al","9"]])` with default options
renders exactly five lines — top border, styled header row, divider, one
styled body row, bottom border — built from the box-drawing glyphs of the
grid convention, and leaves the caller's rows holding only the body row. -/
theorem table_example_render :
    tableRender 0 exampleRows {}
      = some ([
          [TSeg.raw [], TSeg.styled ["gray"] "┌──────┬─────┐".toList],
          [TSeg.raw [], TSeg.styled ["gray"] ['│'],
            TSeg.styled ["bold", "yellow"] " Name ".toList, TSeg.raw [],
            TSeg.styled ["gray"] ['│'],
            TSeg.styled ["bold", "yellow"] " Age ".toList, TSeg.raw [],
            TSeg.styled ["gray"] ['│']],
          [TSeg.raw [], TSeg.styled ["gray"] "├──────┼─────┤".toList],
          [TSeg.raw [], TSeg.styled ["gray"] ['│'],
            TSeg.styled ["cyan"] " Al ".toList, TSeg.raw "  ".toList,
            TSeg.styled ["gray"] ['│'],
            TSeg.styled ["cyan"] " 9 ".toList, TSeg.raw "  ".toList,
            TSeg.styled ["gray"] ['│']],
          [TSeg.raw [], TSeg.styled ["gray"] "└──────┴─────┘".toList]],
        [["Al".toList, "9".toList]]) := by
  simp [tableRender, exampleRows, foldCols, updRow, updMax, swM, stripAnsi,
    borderChars, borderDashes, rowSegs]

/-- Auto-fit never changes the number of rows. -/
theorem autoFitTableRows_length (termWidth : ℕ) (indent : List Char)
    (rows : List (List (List Char))) :
    (autoFitTableRows termWidth indent rows).length = rows.length := by
  rw [autoFitTableRows]
  split
  · rfl
  · simp

/-- C10.  `table` mutates the caller's rows: the header row is removed by
`rows.shift()`, and with `autoFit` enabled the over-wide cells have been
replaced in place by their truncated versions first; for any grid with a
header row the rows array the caller is left with differs from the one
passed in. -/
theorem table_mutates_rows (termWidth : ℕ) (rows : List (List (List Char)))
    (args : TableArgs) (h : rows ≠ []) :
    (tableRender termWidth rows args).map Prod.snd
        = some ((if args.autoFit then
            autoFitTableRows termWidth args.indent rows else rows).tail)
    ∧ (if args.autoFit then
          autoFitTableRows termWidth args.indent rows else rows).tail ≠ rows := by
  have hlen1 : (if args.autoFit then
      autoFitTableRows termWidth args.indent rows else rows).length = rows.length := by
    split
    · exact autoFitTableRows_length _ _ _
    · rfl
  obtain ⟨hdr, body, hsplit⟩ : ∃ hdr body,
      (if args.autoFit then
        autoFitTableRows termWidth args.indent rows else rows) = hdr :: body := by
    rcases hr : (if args.autoFit then
        autoFitTableRows termWidth args.indent rows else rows) with _ | ⟨hdr, body⟩
    · rw [hr] at hlen1
      rcases rows with _ | _
      · exact absurd rfl h
      · simp at hlen1
    · exact ⟨hdr, body, rfl⟩
  constructor
  · simp only [tableRender]
    rw [hsplit]
    simp
  · rw [hsplit]
    intro hcon
    have hlc := congrArg List.length hcon
    rw [hsplit] at hlen1
    simp only [List.tail_cons] at hlc
    simp only [List.length_cons] at hlen1
    omega

theorem getD_updMax (l : List ℕ) (i v j : ℕ) :
    (updMax l i v).getD j 0
      = if j = i then max (l.getD i 0) v else l.getD j 0 := by
  rw [updMax, List.getD_eq_getElem?_getD, List.getElem?_set]
  by_cases hij : i = j
  · subst hij
    have hlen : i < l.length + (i + 1 - l.length) := by omega
    simp [hlen]
  · rw [if_neg hij, if_neg (fun hcon => hij hcon.symm), List.getElem?_append]
    split
    · rw [List.getD_eq_getElem?_getD]
    · rw [List.getElem?_replicate]
      rename_i hnl
      rw [List.getD_eq_getElem?_getD, List.getElem?_eq_none (le_of_not_lt hnl)]
      split <;> rfl

theorem getD_set_nat (l : List ℕ) (idx v i : ℕ) :
    (l.set idx v).getD i 0
      = if idx = i ∧ idx < l.length then v else l.getD i 0 := by
  rw [List.getD_eq_getElem?_getD, List.getElem?_set]
  by_cases hii : idx = i
  · subst hii
    by_cases hlen : idx < l.length
    · simp [hlen]
    · rw [if_pos rfl, if_neg hlen, if_neg (fun hcon => hlen hcon.2),
        List.getD_eq_getElem?_getD, List.getElem?_eq_none (le_of_not_lt hlen)]
  · rw [if_neg hii, if_neg (fun hcon => hii hcon.1), List.getD_eq_getElem?_getD]

theorem getD_updRow_mono (f : ℕ → List Char → ℕ) (cols : List (List Char)) :
    ∀ (acc : List ℕ) (i j : ℕ),
      acc.getD j 0 ≤ (updRow f acc i cols).getD j 0 := by
  induction cols with
  | nil => intro acc i j; simp [updRow]
  | cons c cs ih =>
    intro acc i j
    simp only [updRow]
    refine le_trans ?_ (ih (updMax acc i (f i c)) (i + 1) j)
    rw [getD_updMax]
    split
    · rename_i hj
      rw [hj]
      exact le_max_left _ _
    · exact le_refl _

theorem getD_updRow_hit (f : ℕ → List Char → ℕ) (cols : List (List Char)) :
    ∀ (acc : List ℕ) (i k : ℕ) (hk : k < cols.length),
      f (i + k) (cols.get ⟨k, hk⟩) ≤ (updRow f acc i cols).getD (i + k) 0 := by
  induction cols with
  | nil => intro acc i k hk; simp at hk
  | cons c cs ih =>
    intro acc i k hk
    cases k with
    | zero =>
      simp only [updRow, Nat.add_zero, List.get]
      refine le_trans ?_ (getD_updRow_mono f cs (updMax acc i (f i c)) (i + 1) i)
      rw [getD_updMax, if_pos rfl]
      exact le_max_right _ _
    | succ k2 =>
      have hk2 : k2 < cs.length := by simpa using hk
      have hstep := ih (updMax acc i (f i c)) (i + 1) k2 hk2
      simp only [updRow]
      have harith : i + (k2 + 1) = (i + 1) + k2 := by omega
      rw [harith]
      simpa using hstep

theorem foldl_updRow_mono (f : ℕ → List Char → ℕ) (rows : List (List (List Char))) :
    ∀ (acc : List ℕ) (j : ℕ),
      acc.getD j 0 ≤ (rows.foldl (fun a cols => updRow f a 0 cols) acc).getD j 0 := by
  induction rows with
  | nil => intro acc j; simp
  | cons r rs ih =>
    intro acc j
    simp only [List.foldl_cons]
    exact le_trans (getD_updRow_mono f r acc 0 j) (ih _ j)

theorem foldl_updRow_hit (f : ℕ → List Char → ℕ) (rows : List (List (List Char))) :
    ∀ (acc : List ℕ) (row : List (List Char)), row ∈ rows →
      ∀ (k : ℕ) (hk : k < row.length),
        f k (row.get ⟨k, hk⟩) ≤ (rows.foldl (fun a cols => updRow f a 0 cols) acc).getD k 0 := by
  induction rows with
  | nil => intro _ _ h; simp at h
  | cons r rs ih =>
    intro acc row hrow k hk
    simp only [List.foldl_cons]
    rcases List.mem_cons.1 hrow with h | h
    · subst h
      have h1 := getD_updRow_hit f row acc 0 k hk
      have h2 := foldl_updRow_mono f rs (updRow f acc 0 row) k
      simp only [Nat.zero_add] at h1
      exact le_trans h1 h2
    · exact ih _ _ h k hk

/-- Every cell's width is bounded by its column's natural width. -/
theorem colWidths_ge (rows : List (List (List Char))) (row : List (List Char))
    (hrow : row ∈ rows) (k : ℕ) (hk : k < row.length) :
    swM (row.get ⟨k, hk⟩) ≤ (colWidths rows).getD k 0 :=
  foldl_updRow_hit (fun _ c => swM c) rows [] row hrow k hk

/-- C2 loop postcondition: after the shrink loop, either the measured table
fits or every working column width is at most 1 (the e-brake fires only
below 2, so a width-2 column is still decremented to 1). -/
theorem autoFitLoop_post (rows : List (List (List Char))) (avail : ℕ) (caps : List ℕ) :
    measureWidth rows (autoFitLoop rows avail caps) ≤ avail
    ∨ ∀ w ∈ autoFitLoop rows avail caps, w ≤ 1 := by
  suffices H : ∀ (n : ℕ) (cs : List ℕ), cs.sum ≤ n →
      (measureWidth rows (autoFitLoop rows avail cs) ≤ avail
        ∨ ∀ w ∈ autoFitLoop rows avail cs, w ≤ 1) from H caps.sum caps le_rfl
  intro n
  induction n using Nat.strong_induction_on with
  | _ n ih =>
    intro cs hc
    rw [autoFitLoop.eq_def]
    split
    · rename_i hfit
      exact Or.inl hfit
    · split
      · rename_i hmax
        rw [List.maximum_eq_none.1 hmax]
        exact Or.inr (fun w hw => absurd hw (List.not_mem_nil w))
      · rename_i m hmax
        split
        · rename_i hlt
          refine Or.inr (fun w hw => ?_)
          have := List.le_maximum_of_mem hw hmax
          omega
        · rename_i hnlt
          have hmem : m ∈ cs := List.maximum_mem hmax
          have hidx : cs.indexOf m < cs.length := List.indexOf_lt_length.2 hmem
          have hget : cs.get ⟨cs.indexOf m, hidx⟩ = m := List.indexOf_get hidx
          obtain ⟨h1, h2⟩ := sum_set_nat cs (cs.indexOf m) hidx (m - 1)
          rw [hget] at h1 h2
          exact ih ((cs.set (cs.indexOf m) (m - 1)).sum) (by omega) _ le_rfl

/-- C2 loop cap-shape invariant: every working width either stays at its
initial (natural) value or remains at least 1 — decrements only hit
entries that are at least 2. -/
theorem autoFitLoop_caps (rows : List (List (List Char))) (avail : ℕ)
    (init : List ℕ) (caps : List ℕ)
    (hinv : ∀ i, 1 ≤ caps.getD i 0 ∨ caps.getD i 0 = init.getD i 0) :
    ∀ i, 1 ≤ (autoFitLoop rows avail caps).getD i 0
        ∨ (autoFitLoop rows avail caps).getD i 0 = init.getD i 0 := by
  suffices H : ∀ (n : ℕ) (cs : List ℕ), cs.sum ≤ n →
      (∀ i, 1 ≤ cs.getD i 0 ∨ cs.getD i 0 = init.getD i 0) →
      ∀ i, 1 ≤ (autoFitLoop rows avail cs).getD i 0
          ∨ (autoFitLoop rows avail cs).getD i 0 = init.getD i 0 from
    H caps.sum caps le_rfl hinv
  intro n
  induction n using Nat.strong_induction_on with
  | _ n ih =>
    intro cs hc hcs
    rw [autoFitLoop.eq_def]
    split
    · exact hcs
    · split
      · exact hcs
      · rename_i m hmax
        split
        · exact hcs
        · rename_i hnlt
          have hmem : m ∈ cs := List.maximum_mem hmax
          have hidx : cs.indexOf m < cs.length := List.indexOf_lt_length.2 hmem
          have hget : cs.get ⟨cs.indexOf m, hidx⟩ = m := List.indexOf_get hidx
          obtain ⟨h1, h2⟩ := sum_set_nat cs (cs.indexOf m) hidx (m - 1)
          rw [hget] at h1 h2
          refine ih ((cs.set (cs.indexOf m) (m - 1)).sum) (by omega) _ le_rfl ?_
          intro i
          rw [getD_set_nat]
          split
          · left
            omega
          · exact hcs i

theorem matchLeadEsc_none (l : List Char) (h : escChar ∉ l) :
    matchLeadEsc l = none := by
  rcases l with _ | ⟨c, _ | ⟨d, r2⟩⟩
  · rfl
  · rfl
  · rw [matchLeadEsc, if_neg]
    intro hcon
    exact h (hcon.1 ▸ List.mem_cons_self c _)

theorem stripLeading_no_esc (l : List Char) (h : escChar ∉ l) :
    stripLeading l = ([], l) := by
  rw [stripLeading.eq_def]
  split
  · rename_i e rest heq
    rw [matchLeadEsc_none l h] at heq
    exact absurd heq (by simp)
  · rfl

theorem validHead_false (c : Char) (rest : List Char) (h : c ≠ escChar) :
    validHead (c :: rest) = false := by
  rcases rest with _ | ⟨d, r2⟩
  · rfl
  · rw [validHead]
    simp [h]

theorem matchTrailEsc_none (l : List Char) (h : escChar ∉ l) :
    matchTrailEsc l = none := by
  induction l with
  | nil => rfl
  | cons c rest ih =>
    rw [matchTrailEsc, if_neg, ih (fun hm => h (List.mem_cons_of_mem c hm))]
    rw [validHead_false c rest (fun hc => h (hc ▸ List.mem_cons_self c rest))]
    simp

theorem stripTrailing_no_esc (l : List Char) (h : escChar ∉ l) :
    stripTrailing l = (l, []) := by
  rw [stripTrailing.eq_def]
  split
  · rename_i r e heq
    rw [matchTrailEsc_none l h] at heq
    exact absurd heq (by simp)
  · rfl

/-- Truncating an escape-free cell yields exactly the capped display width,
provided the cap is at least 1 whenever truncation fires. -/
theorem swM_truncateCell (cap : ℕ) (c : List Char) (hplain : escChar ∉ c)
    (hc : 1 ≤ cap ∨ swM c ≤ cap) :
    swM (truncateCell cap c) = min (swM c) cap := by
  rw [truncateCell]
  by_cases h : cap < swM c
  · rw [if_pos h, stripLeading_no_esc c hplain]
    rw [stripTrailing_no_esc c hplain]
    have hlen : swM c = c.length := swM_of_not_mem c hplain
    have hne : escChar ∉ c.take (cap - 1) ++ '…' :: ([] : List Char) := by
      intro hmem
      rcases List.mem_append.1 hmem with hm | hm
      · exact hplain (List.mem_of_mem_take hm)
      · rw [List.mem_singleton] at hm
        exact absurd hm (by decide)
    show swM (([] : List Char) ++ c.take (cap - 1) ++ '…' :: ([] : List Char))
        = min (swM c) cap
    rw [List.nil_append, swM_of_not_mem _ hne]
    have hcap1 : 1 ≤ cap := by
      rcases hc with h1 | h1
      · exact h1
      · omega
    rw [hlen] at h
    simp only [List.length_append, List.length_take, List.length_cons,
      List.length_nil]
    rw [hlen, min_def, min_def]
    split <;> split <;> omega
  · rw [if_neg h]
    have h2 := le_of_not_lt h
    rw [min_eq_left h2]

/-- Lockstep: the width fold over a truncated row equals the min-capped
width fold over the original row, given the per-cell width equation. -/
theorem updRow_trunc (caps : List ℕ) (cols : List (List Char)) :
    ∀ (i : ℕ) (acc : List ℕ),
      (∀ (k : ℕ) (hk : k < cols.length),
        swM (truncateCell (caps.getD (i + k) 0) (cols.get ⟨k, hk⟩))
          = min (swM (cols.get ⟨k, hk⟩)) (caps.getD (i + k) 0)) →
      updRow (fun _ c => swM c + 2) acc i (truncRow caps i cols)
        = updRow (fun j c => min (swM c) (caps.getD j 0) + 2) acc i cols := by
  induction cols with
  | nil => intro i acc _; rfl
  | cons c cs ih =>
    intro i acc hcell
    simp only [truncRow, updRow]
    have h0 := hcell 0 (by simp)
    simp only [Nat.add_zero, List.get] at h0
    rw [h0]
    refine ih (i + 1) _ (fun k hk => ?_)
    have := hcell (k + 1) (by simpa using hk)
    have harith : i + (k + 1) = (i + 1) + k := by omega
    rw [harith] at this
    simpa using this

/-- Lockstep over the whole grid. -/
theorem foldCols_trunc (caps : List ℕ) (rows : List (List (List Char)))
    (hcell : ∀ row ∈ rows, ∀ (k : ℕ) (hk : k < row.length),
      swM (truncateCell (caps.getD k 0) (row.get ⟨k, hk⟩))
        = min (swM (row.get ⟨k, hk⟩)) (caps.getD k 0)) :
    foldCols (fun _ c => swM c + 2) (rows.map (fun cols => truncRow caps 0 cols))
      = foldCols (fun j c => min (swM c) (caps.getD j 0) + 2) rows := by
  rw [foldCols, foldCols, List.foldl_map]
  suffices H : ∀ (rs : List (List (List Char))) (acc : List ℕ),
      (∀ row ∈ rs, ∀ (k : ℕ) (hk : k < row.length),
        swM (truncateCell (caps.getD k 0) (row.get ⟨k, hk⟩))
          = min (swM (row.get ⟨k, hk⟩)) (caps.getD k 0)) →
      rs.foldl (fun a y => updRow (fun _ c => swM c + 2) a 0 (truncRow caps 0 y)) acc
        = rs.foldl (fun a cols =>
            updRow (fun j c => min (swM c) (caps.getD j 0) + 2) a 0 cols) acc from
    H rows [] hcell
  intro rs
  induction rs with
  | nil => intro acc _; rfl
  | cons r rs2 ih =>
    intro acc hcell2
    simp only [List.foldl_cons]
    rw [updRow_trunc caps r 0 acc (fun k hk => by
      simpa using hcell2 r (List.mem_cons_self r rs2) k hk)]
    exact ih _ (fun row hrow k hk => hcell2 row (List.mem_cons_of_mem r hrow) k hk)

/-- The rendered width of a table grid: the length of its top border line
(the fold `table` itself performs). -/
def tableWidth (rows : List (List (List Char))) : ℕ :=
  borderLen (foldCols (fun _ c => swM c + 2) rows)

theorem borderDashes_length (mid rgt : Char) (ws : List ℕ) :
    (borderDashes mid rgt ws).length
      = if ws.isEmpty then 1 else ws.sum + ws.length := by
  induction ws with
  | nil => rfl
  | cons w rest ih =>
    rcases rest with _ | ⟨w2, r2⟩
    · simp [borderDashes]
    · simp only [List.isEmpty_cons, Bool.false_eq_true, if_false] at ih
      have hstep : borderDashes mid rgt (w :: w2 :: r2)
          = List.replicate w '─' ++ mid :: borderDashes mid rgt (w2 :: r2) := rfl
      rw [hstep]
      simp [ih, List.sum_cons]
      omega

/-- The top border really is `borderLen` characters wide. -/
theorem borderChars_length (lft mid rgt : Char) (ws : List ℕ) :
    (borderChars lft mid rgt ws).length = borderLen ws := by
  rw [borderChars, List.length_cons, borderDashes_length, borderLen]
  split <;> omega

/-- Counterexample to C2 as stated: one column holding "ab" with 4 columns
of available width.  The loop decrements the working width 2 → 1 (the
e-brake fires only below 2), stops with the single column at width 1 — not
at a 2-character floor — and the rendered table is 5 columns wide, more
than the available 4, while no column sits at 2. -/
theorem autofit_floor_counterexample :
    autoFitLoop [[['a', 'b']]] 4 (colWidths [[['a', 'b']]]) = [1]
    ∧ tableWidth (autoFitTableRows 4 [] [[['a', 'b']]]) = 5
    ∧ ¬ (tableWidth (autoFitTableRows 4 [] [[['a', 'b']]]) ≤ 4
          ∨ ∀ w ∈ autoFitLoop [[['a', 'b']]] 4 (colWidths [[['a', 'b']]]), 2 ≤ w) := by
  refine ⟨?_, ?_, ?_⟩
  · simp [autoFitLoop, colWidths, foldCols, updRow, updMax, swM, stripAnsi,
      measureWidth, borderLen, List.maximum]
  · simp [tableWidth, autoFitTableRows, autoFitLoop, colWidths, foldCols, updRow,
      updMax, swM, stripAnsi, measureWidth, borderLen, truncRow, truncateCell,
      stripLeading, stripTrailing, matchLeadEsc, matchTrailEsc, validHead,
      List.maximum]
  · simp [tableWidth, autoFitTableRows, autoFitLoop, colWidths, foldCols, updRow,
      updMax, swM, stripAnsi, measureWidth, borderLen, truncRow, truncateCell,
      stripLeading, stripTrailing, matchLeadEsc, matchTrailEsc, validHead,
      List.maximum]

/-- C2 (amended).  With `availableWidth = terminalWidth - 2·width(indent)`:
below 1 the auto-fit silently does nothing; otherwise the loop decrements
the single widest working column by one at a time and stops either when
the measured table fits or when the widest working column has dropped
below 2 — the floor is 1, not 2, because a width-2 column is still
decremented before the e-brake can fire.  Consequently, for grids of plain
(escape-free) cells, the rendered table (whose top border is exactly
`borderLen` glyphs) is never wider than the available width unless every
working column width has reached 1 or less. -/
theorem autofit_width_floor (termWidth : ℕ) (indent : List Char)
    (rows : List (List (List Char)))
    (hplain : ∀ row ∈ rows, ∀ c ∈ row, escChar ∉ c) :
    ((termWidth : ℤ) - (swM indent : ℤ) * 2 < 1 →
        autoFitTableRows termWidth indent rows = rows)
    ∧ (1 ≤ (termWidth : ℤ) - (swM indent : ℤ) * 2 →
        tableWidth (autoFitTableRows termWidth indent rows)
            ≤ ((termWidth : ℤ) - (swM indent : ℤ) * 2).toNat
          ∨ ∀ w ∈ autoFitLoop rows ((termWidth : ℤ) - (swM indent : ℤ) * 2).toNat
              (colWidths rows), w ≤ 1)
    ∧ (∀ ws, (borderChars '┌' '┬' '┐' ws).length = borderLen ws) := by
  refine ⟨?_, ?_, borderChars_length '┌' '┬' '┐'⟩
  · intro h
    rw [autoFitTableRows, if_pos h]
  · intro h
    set avail : ℕ := ((termWidth : ℤ) - (swM indent : ℤ) * 2).toNat with ha
    set caps := autoFitLoop rows avail (colWidths rows) with hcdef
    have htr : autoFitTableRows termWidth indent rows
        = rows.map (fun cols => truncRow caps 0 cols) := by
      rw [autoFitTableRows, if_neg (not_lt.2 h)]
    have hinv := autoFitLoop_caps rows avail (colWidths rows) (colWidths rows)
      (fun _ => Or.inr rfl)
    have hcell : ∀ row ∈ rows, ∀ (k : ℕ) (hk : k < row.length),
        swM (truncateCell (caps.getD k 0) (row.get ⟨k, hk⟩))
          = min (swM (row.get ⟨k, hk⟩)) (caps.getD k 0) := by
      intro row hrow k hk
      apply swM_truncateCell
      · exact hplain row hrow _ (row.get_mem _ _)
      · rcases hinv k with h1 | h1
        · exact Or.inl h1
        · right
          rw [h1]
          exact colWidths_ge rows row hrow k hk
    have hw : tableWidth (rows.map (fun cols => truncRow caps 0 cols))
        = measureWidth rows caps := by
      rw [tableWidth, measureWidth, foldCols_trunc caps rows hcell]
    rcases autoFitLoop_post rows avail (colWidths rows) with hfit | hfloor
    · left
      rw [htr, hw]
      exact hfit
    · right
      exact hfloor

/-- Witness for C2 (amended): the over-wide "ab" column ends at the floor,
so the right disjunct holds. -/
theorem autofit_width_floor_witness :
    tableWidth (autoFitTableRows 4 [] [[['a', 'b']]])
        ≤ ((4 : ℤ) - (swM [] : ℤ) * 2).toNat
      ∨ ∀ w ∈ autoFitLoop [[['a', 'b']]] ((4 : ℤ) - (swM [] : ℤ) * 2).toNat
          (colWidths [[['a', 'b']]]), w ≤ 1 :=
  (autofit_width_floor 4 [] [[['a', 'b']]] (by decide)).2.1
    (by norm_num [swM, stripAnsi])

/-- A well-formed ANSI style escape: `ESC [ body m` with a body free of
both `m` and the escape character. -/
def isStyleEsc (e : List Char) : Bool :=
  match e with
  | c :: d :: r2 =>
    c == escChar && d == '[' && r2.getLast? == some 'm'
      && r2.dropLast.all (fun x => x != 'm' && x != escChar)
  | _ => false

theorem isStyleEsc_shape (e : List Char) (h : isStyleEsc e = true) :
    ∃ body, e = escChar :: '[' :: (body ++ ['m'])
      ∧ ∀ x ∈ body, x ≠ 'm' ∧ x ≠ escChar := by
  rcases e with _ | ⟨c, _ | ⟨d, r2⟩⟩
  · exact absurd h (by simp [isStyleEsc])
  · exact absurd h (by simp [isStyleEsc])
  · rw [isStyleEsc] at h
    simp only [Bool.and_eq_true, beq_iff_eq, List.all_eq_true] at h
    obtain ⟨⟨⟨hc, hd⟩, hlast⟩, hbody⟩ := h
    subst hc
    subst hd
    have hr2ne : r2 ≠ [] := by
      intro hcon
      rw [hcon] at hlast
      exact absurd hlast (by simp)
    refine ⟨r2.dropLast, ?_, ?_⟩
    · have := List.dropLast_append_getLast hr2ne
      rw [List.getLast?_eq_getLast r2 hr2ne] at hlast
      have hm : r2.getLast hr2ne = 'm' := by simpa using hlast
      rw [hm] at this
      rw [this]
    · intro x hx
      have := hbody x hx
      simp only [Bool.and_eq_true, bne_iff_ne, ne_eq] at this
      exact this

theorem takeWhile_to_m (body r : List Char) (hm : 'm' ∉ body) :
    ((body ++ 'm' :: r).takeWhile (· ≠ 'm')) = body := by
  induction body with
  | nil => simp [List.takeWhile]
  | cons c cs ih =>
    have hcm : c ≠ 'm' := fun hcon => hm (hcon ▸ List.mem_cons_self c cs)
    have hstep : List.takeWhile (fun x => decide (x ≠ 'm')) (c :: (cs ++ 'm' :: r))
        = c :: List.takeWhile (fun x => decide (x ≠ 'm')) (cs ++ 'm' :: r) := by
      simp [List.takeWhile_cons, hcm]
    rw [List.cons_append, hstep, ih (fun hmem => hm (List.mem_cons_of_mem c hmem))]

theorem dropWhile_to_m (body r : List Char) (hm : 'm' ∉ body) :
    ((body ++ 'm' :: r).dropWhile (· ≠ 'm')) = 'm' :: r := by
  induction body with
  | nil => simp [List.dropWhile]
  | cons c cs ih =>
    have hcm : c ≠ 'm' := fun hcon => hm (hcon ▸ List.mem_cons_self c cs)
    have hstep : List.dropWhile (fun x => decide (x ≠ 'm')) (c :: (cs ++ 'm' :: r))
        = List.dropWhile (fun x => decide (x ≠ 'm')) (cs ++ 'm' :: r) := by
      simp [List.dropWhile_cons, hcm]
    rw [List.cons_append, hstep]
    exact ih (fun hmem => hm (List.mem_cons_of_mem c hmem))

/-- The leading regex consumes exactly one well-formed escape: lazy
matching stops at the escape's own `m`. -/
theorem matchLeadEsc_esc (body r : List Char) (hm : 'm' ∉ body) :
    matchLeadEsc (escChar :: '[' :: ((body ++ ['m']) ++ r))
      = some (escChar :: '[' :: (body ++ ['m']), r) := by
  have hassoc : (body ++ ['m']) ++ r = body ++ 'm' :: r := by simp
  rw [hassoc, matchLeadEsc,
    if_pos ⟨rfl, rfl, by simp⟩,
    takeWhile_to_m body r hm, dropWhile_to_m body r hm]
  simp

theorem matchLeadEsc_none_head (l : List Char) (h : ∀ c, l.head? = some c → c ≠ escChar) :
    matchLeadEsc l = none := by
  rcases l with _ | ⟨c, _ | ⟨d, r2⟩⟩
  · rfl
  · rfl
  · rw [matchLeadEsc, if_neg]
    intro hcon
    exact h c rfl hcon.1

/-- The leading strip loop removes exactly the leading escapes, in
order. -/
theorem stripLeading_concat (pfx : List (List Char)) (rest : List Char)
    (hp : ∀ e ∈ pfx, isStyleEsc e = true)
    (hrest : matchLeadEsc rest = none) :
    stripLeading (pfx.flatten ++ rest) = (pfx.flatten, rest) := by
  induction pfx with
  | nil =>
    rw [List.flatten_nil, List.nil_append, stripLeading.eq_def]
    split
    · rename_i e r heq
      rw [hrest] at heq
      exact absurd heq (by simp)
    · rfl
  | cons e pfx2 ih =>
    obtain ⟨body, hshape, hbody⟩ := isStyleEsc_shape e (hp e (List.mem_cons_self e pfx2))
    have hm : 'm' ∉ body := fun hmem => (hbody 'm' hmem).1 rfl
    have hflat : (e :: pfx2).flatten ++ rest
        = escChar :: '[' :: ((body ++ ['m']) ++ (pfx2.flatten ++ rest)) := by
      rw [List.flatten_cons, hshape]
      simp
    rw [hflat, stripLeading.eq_def]
    split
    · rename_i e2 r2 heq
      rw [matchLeadEsc_esc body _ hm] at heq
      simp only [Option.some.injEq, Prod.mk.injEq] at heq
      obtain ⟨he2, hr2⟩ := heq
      subst he2
      subst hr2
      rw [ih (fun x hx => hp x (List.mem_cons_of_mem e hx))]
      rw [List.flatten_cons, hshape]
    · rename_i heq
      rw [matchLeadEsc_esc body _ hm] at heq
      exact absurd heq (by simp)

/-- A well-formed escape standing alone matches the trailing regex whole. -/
theorem validHead_of_style (e : List Char) (he : isStyleEsc e = true) :
    validHead e = true := by
  obtain ⟨body, hshape, hbody⟩ := isStyleEsc_shape e he
  subst hshape
  rw [validHead]
  simp only [Bool.and_eq_true, beq_iff_eq, List.all_eq_true, List.getLast?_concat,
    List.dropLast_concat]
  refine ⟨⟨⟨trivial, trivial⟩, trivial⟩, fun x hx => ?_⟩
  simp only [bne_iff_ne, ne_eq]
  exact (hbody x hx).1

theorem matchTrail_self (e : List Char) (he : isStyleEsc e = true) :
    matchTrailEsc e = some ([], e) := by
  obtain ⟨body, hshape, _⟩ := isStyleEsc_shape e he
  have hv := validHead_of_style e he
  rw [hshape] at hv ⊢
  rw [matchTrailEsc, if_pos (by simp [hv])]

theorem matchTrail_cons_skip (c : Char) (l : List Char)
    (hv : validHead (c :: l) = false) :
    matchTrailEsc (c :: l) = (matchTrailEsc l).map (fun p => (c :: p.1, p.2)) := by
  rw [matchTrailEsc, if_neg (by simp [hv])]
  cases hm : matchTrailEsc l with
  | none => simp
  | some p =>
    cases p
    simp

theorem matchTrail_skip_no_esc (xs l : List Char) (hxs : escChar ∉ xs) :
    matchTrailEsc (xs ++ l) = (matchTrailEsc l).map (fun p => (xs ++ p.1, p.2)) := by
  induction xs with
  | nil =>
    cases hm : matchTrailEsc l with
    | none => simp [hm]
    | some p =>
      cases p
      simp [hm]
  | cons c cs ih =>
    have hc : c ≠ escChar := fun hcon => hxs (hcon ▸ List.mem_cons_self c cs)
    rw [List.cons_append, matchTrail_cons_skip c _ (validHead_false c _ hc),
      ih (fun hmem => hxs (List.mem_cons_of_mem c hmem))]
    cases hm : matchTrailEsc l with
    | none => simp
    | some p =>
      cases p
      simp

/-- With more text after it, an escape's own `m` invalidates any trailing
match starting at the escape. -/
theorem validHead_esc_append (body l : List Char) (hl : l ≠ []) :
    validHead (escChar :: '[' :: ((body ++ ['m']) ++ l)) = false := by
  rw [validHead]
  have hmem : 'm' ∈ ((body ++ ['m']) ++ l).dropLast := by
    rw [List.dropLast_append_of_ne_nil _ hl]
    exact List.mem_append.2 (Or.inl (List.mem_append.2 (Or.inr (List.mem_singleton.2 rfl))))
  have hall : ((body ++ ['m']) ++ l).dropLast.all (fun x => x != 'm') = false := by
    by_contra hcon
    rw [Bool.not_eq_false] at hcon
    have := List.all_eq_true.1 hcon 'm' hmem
    simp at this
  rw [hall]
  simp

theorem matchTrail_esc_skip (e l : List Char) (he : isStyleEsc e = true)
    (hl : l ≠ []) :
    matchTrailEsc (e ++ l) = (matchTrailEsc l).map (fun p => (e ++ p.1, p.2)) := by
  obtain ⟨body, hshape, hbody⟩ := isStyleEsc_shape e he
  subst hshape
  have h1 : (escChar :: '[' :: (body ++ ['m'])) ++ l
      = escChar :: ('[' :: ((body ++ ['m']) ++ l)) := by simp
  rw [h1, matchTrail_cons_skip escChar _ (validHead_esc_append body l hl)]
  have h2 : '[' :: ((body ++ ['m']) ++ l) = ('[' :: (body ++ ['m'])) ++ l := by simp
  have hxs : escChar ∉ '[' :: (body ++ ['m']) := by
    intro hmem
    rcases List.mem_cons.1 hmem with hx | hx
    · exact absurd hx.symm (by decide)
    · rcases List.mem_append.1 hx with hx2 | hx2
      · exact (hbody escChar hx2).2 rfl
      · rw [List.mem_singleton] at hx2
        exact absurd hx2.symm (by decide)
  rw [h2, matchTrail_skip_no_esc _ l hxs]
  cases hm : matchTrailEsc l with
  | none => simp
  | some p =>
    cases p
    simp

/-- The trailing regex on an escape-run matches exactly the final escape. -/
theorem matchTrail_flatten_end (pre : List (List Char)) (e : List Char)
    (hp : ∀ x ∈ pre, isStyleEsc x = true) (he : isStyleEsc e = true) :
    matchTrailEsc (pre.flatten ++ e) = some (pre.flatten, e) := by
  induction pre with
  | nil => simpa using matchTrail_self e he
  | cons e1 pre2 ih =>
    have he1 := hp e1 (List.mem_cons_self e1 pre2)
    have hene : pre2.flatten ++ e ≠ [] := by
      obtain ⟨b, hsh, _⟩ := isStyleEsc_shape e he
      simp [hsh]
    rw [List.flatten_cons, List.append_assoc,
      matchTrail_esc_skip e1 _ he1 hene,
      ih (fun x hx => hp x (List.mem_cons_of_mem e1 hx))]
    simp

/-- The trailing strip loop removes exactly the trailing escapes, in
order. -/
theorem stripTrailing_concat (core : List Char) (sfx : List (List Char))
    (hc : escChar ∉ core) (hs : ∀ e ∈ sfx, isStyleEsc e = true) :
    stripTrailing (core ++ sfx.flatten) = (core, sfx.flatten) := by
  induction sfx using List.reverseRecOn with
  | nil => simpa using stripTrailing_no_esc core hc
  | append_singleton pre e ih =>
    have hmatch : matchTrailEsc (core ++ (pre ++ [e]).flatten)
        = some (core ++ pre.flatten, e) := by
      rw [List.flatten_append, show ([e] : List (List Char)).flatten = e by simp,
        ← List.append_assoc]
      rw [List.append_assoc, matchTrail_skip_no_esc core _ hc,
        matchTrail_flatten_end pre e
          (fun x hx => hs x (List.mem_append.2 (Or.inl hx)))
          (hs e (List.mem_append.2 (Or.inr (List.mem_singleton.2 rfl))))]
      simp
    rw [stripTrailing.eq_def]
    split
    · rename_i r2 e2 heq
      rw [hmatch] at heq
      simp only [Option.some.injEq, Prod.mk.injEq] at heq
      obtain ⟨hr2, he2⟩ := heq
      subst hr2
      subst he2
      rw [ih (fun x hx => hs x (List.mem_append.2 (Or.inl hx)))]
      rw [List.flatten_append, show ([e] : List (List Char)).flatten = e by simp]
    · rename_i heq
      rw [hmatch] at heq
      exact absurd heq (by simp)

/-- `stripAnsi` deletes a leading well-formed escape. -/
theorem stripAnsi_esc (body r : List Char) (hm : 'm' ∉ body) :
    stripAnsi (escChar :: '[' :: ((body ++ ['m']) ++ r)) = stripAnsi r := by
  rw [stripAnsi]
  rw [if_pos ⟨rfl, by simp, by simp⟩]
  congr 1
  rw [show ('[' :: ((body ++ ['m']) ++ r)).tail = body ++ 'm' :: r by simp]
  rw [dropWhile_to_m body r hm]
  rfl

theorem stripAnsi_append_no_esc (core X : List Char) (h : escChar ∉ core) :
    stripAnsi (core ++ X) = core ++ stripAnsi X := by
  induction core with
  | nil => simp
  | cons c cs ih =>
    have hc : c ≠ escChar := fun hcon => h (hcon ▸ List.mem_cons_self c cs)
    rw [List.cons_append, stripAnsi, if_neg (fun hcon => hc hcon.1),
      ih (fun hmem => h (List.mem_cons_of_mem c hmem))]
    rfl

theorem stripAnsi_flatten_esc (sfx : List (List Char))
    (hs : ∀ e ∈ sfx, isStyleEsc e = true) :
    stripAnsi sfx.flatten = [] := by
  induction sfx with
  | nil => simpa using stripAnsi_of_not_mem [] (by simp)
  | cons e sfx2 ih =>
    obtain ⟨body, hshape, hbody⟩ := isStyleEsc_shape e (hs e (List.mem_cons_self e sfx2))
    have hm : 'm' ∉ body := fun hmem => (hbody 'm' hmem).1 rfl
    rw [List.flatten_cons, hshape,
      show (escChar :: '[' :: (body ++ ['m'])) ++ sfx2.flatten
        = escChar :: '[' :: ((body ++ ['m']) ++ sfx2.flatten) by simp,
      stripAnsi_esc body _ hm,
      ih (fun x hx => hs x (List.mem_cons_of_mem e hx))]

theorem stripAnsi_flatten_pre (pfx : List (List Char)) (X : List Char)
    (hp : ∀ e ∈ pfx, isStyleEsc e = true) :
    stripAnsi (pfx.flatten ++ X) = stripAnsi X := by
  induction pfx with
  | nil => simp
  | cons e pfx2 ih =>
    obtain ⟨body, hshape, hbody⟩ := isStyleEsc_shape e (hp e (List.mem_cons_self e pfx2))
    have hm : 'm' ∉ body := fun hmem => (hbody 'm' hmem).1 rfl
    rw [List.flatten_cons, hshape,
      show (escChar :: '[' :: (body ++ ['m'])) ++ pfx2.flatten ++ X
        = escChar :: '[' :: ((body ++ ['m']) ++ (pfx2.flatten ++ X)) by simp,
      stripAnsi_esc body _ hm,
      ih (fun x hx => hp x (List.mem_cons_of_mem e hx))]

/-- Display width of a style-decorated cell is the width of its core
text. -/
theorem swM_decomp (pfx sfx : List (List Char)) (core : List Char)
    (hp : ∀ e ∈ pfx, isStyleEsc e = true) (hs : ∀ e ∈ sfx, isStyleEsc e = true)
    (hesc : escChar ∉ core) :
    swM (pfx.flatten ++ core ++ sfx.flatten) = core.length := by
  rw [swM, List.append_assoc, stripAnsi_flatten_pre pfx _ hp,
    stripAnsi_append_no_esc core _ hesc, stripAnsi_flatten_esc sfx hs,
    List.append_nil]

/-- C6.  For a cell of the form (leading escapes ++ core ++ trailing
escapes) whose display width exceeds its column cap, the auto-fit
truncation strips all leading and trailing style escapes, cuts the core to
`cap - 1` characters, appends one ellipsis, and reattaches the stripped
leading escapes before and the trailing escapes after, verbatim and in
their original order. -/
theorem autofit_truncation_escapes (cap : ℕ) (pfx sfx : List (List Char))
    (core : List Char)
    (hp : ∀ e ∈ pfx, isStyleEsc e = true) (hs : ∀ e ∈ sfx, isStyleEsc e = true)
    (hne : core ≠ []) (hesc : escChar ∉ core) (hlen : cap < core.length) :
    truncateCell cap (pfx.flatten ++ core ++ sfx.flatten)
      = pfx.flatten ++ core.take (cap - 1) ++ '…' :: sfx.flatten := by
  have hswM : swM (pfx.flatten ++ core ++ sfx.flatten) = core.length :=
    swM_decomp pfx sfx core hp hs hesc
  have hlead : stripLeading (pfx.flatten ++ core ++ sfx.flatten)
      = (pfx.flatten, core ++ sfx.flatten) := by
    rw [List.append_assoc]
    refine stripLeading_concat pfx _ hp (matchLeadEsc_none_head _ ?_)
    intro c hc
    rcases core with _ | ⟨c0, core2⟩
    · exact absurd rfl hne
    · simp only [List.cons_append, List.head?_cons, Option.some.injEq] at hc
      subst hc
      intro hcon
      subst hcon
      exact hesc (List.mem_cons_self _ _)
  have htrail : stripTrailing (core ++ sfx.flatten) = (core, sfx.flatten) :=
    stripTrailing_concat core sfx hesc hs
  rw [truncateCell, if_pos (by rw [hswM]; exact hlen), hlead]
  simp only [htrail]

/-- Witness for C6: a red-styled "hello" truncated to a 3-column cap keeps
its escapes and gains the ellipsis. -/
theorem autofit_truncation_escapes_witness :
    truncateCell 3
        (([[escChar, '[', '3', '1', 'm']] : List (List Char)).flatten
          ++ "hello".toList
          ++ ([[escChar, '[', '0', 'm']] : List (List Char)).flatten)
      = ([[escChar, '[', '3', '1', 'm']] : List (List Char)).flatten
          ++ "hello".toList.take 2
          ++ '…' :: ([[escChar, '[', '0', 'm']] : List (List Char)).flatten :=
  autofit_truncation_escapes 3 [[escChar, '[', '3', '1', 'm']]
    [[escChar, '[', '0', 'm']] "hello".toList
    (by decide) (by decide) (by decide) (by decide) (by decide)

/-- Witness for C10 on the example grid. -/
theorem table_mutates_rows_witness :
    (tableRender 0 exampleRows {}).map Prod.snd
        = some ((if ({} : TableArgs).autoFit then
            autoFitTableRows 0 ({} : TableArgs).indent exampleRows else exampleRows).tail)
    ∧ (if ({} : TableArgs).autoFit then
          autoFitTableRows 0 ({} : TableArgs).indent exampleRows else exampleRows).tail
        ≠ exampleRows :=
  table_mutates_rows 0 exampleRows {} (by decide)

end PixlCli
